import Mathlib

/-!
Verification development for the megahal-sql repository.

The repository implements a MegaHAL-style conversational model whose learning
and generation engine lives in SQL functions (megahal_learn, megahal_reply,
megahal_greet, megahal_converse) defined by schema files that are not part of
the checked-out sources; only the Python driver (driver.py) and the test suite
are present.  Following the specification, the linguistic engine (tokenizer,
symbol interner, bidirectional trie learner, babble generator, evaluator,
reconstructor) is therefore modelled here from the spec, while the driver
helpers (load_support_data, is_trained) are translated directly from
driver.py.

Strings are modelled as lists of characters; machine integers as Nat.
-/

namespace MegahalSql

/-- Characters treated as whitespace by the stripper and tokenizer. -/
def isSpaceC (c : Char) : Bool := c = ' ' || c = '\t' || c = '\n' || c = '\r'

/-- Lowercase ASCII letter test. -/
def isLowerC (c : Char) : Bool := 97 ≤ c.toNat && c.toNat ≤ 122

/-- Uppercase ASCII letter test. -/
def isUpperC (c : Char) : Bool := 65 ≤ c.toNat && c.toNat ≤ 90

/-- ASCII digit test. -/
def isDigitC (c : Char) : Bool := 48 ≤ c.toNat && c.toNat ≤ 57

/-- ASCII letter test. -/
def isAlphaC (c : Char) : Bool := isUpperC c || isLowerC c

/-- Modelled from the spec (section 4.1): a word token is a maximal run of
letters and digits. -/
def isWordChar (c : Char) : Bool := isAlphaC c || isDigitC c

/-- Uppercase an ASCII character, leaving everything else unchanged. -/
def upperC (c : Char) : Char :=
  if isLowerC c then Char.ofNat (c.toNat - 32) else c

/-- Strings are modelled as lists of characters. -/
abbrev Str := List Char

/-- Uppercase every character of a string. -/
def upperS (s : Str) : Str := s.map upperC

/-- Drop leading whitespace. -/
def lstrip (s : Str) : Str := s.dropWhile isSpaceC

/-- Drop trailing whitespace. -/
def rstrip (s : Str) : Str := (s.reverse.dropWhile isSpaceC).reverse

/-- Strip leading and trailing whitespace, as Python str.strip does. -/
def stripWS (s : Str) : Str := rstrip (lstrip s)

/-- Split a string on newline characters; the result always has one more
entry than the number of newlines. -/
def splitNL : Str → List Str
  | [] => [[]]
  | c :: cs =>
      if c = '\n' then [] :: splitNL cs
      else
        match splitNL cs with
        | [] => [[c]]
        | l :: ls => (c :: l) :: ls

/-- Tokens are uppercased words or punctuation runs. -/
inductive Tok where
  | word : Str → Tok
  | punct : Str → Tok
deriving DecidableEq, Repr

/-- Underlying characters of a token. -/
def Tok.str : Tok → Str
  | Tok.word s => s
  | Tok.punct s => s

/-- Word-token test. -/
def isWordTok : Tok → Bool
  | Tok.word _ => true
  | Tok.punct _ => false

/-- Emit a pending partial token, if any. -/
def flushTok : Option Tok → List Tok
  | none => []
  | some t => [t]

/-- Modelled from the spec (section 4.1): left-to-right scan collapsing
whitespace, collecting maximal alphanumeric runs as uppercased words and
maximal other runs as punctuation tokens. -/
def tokenizeAux : Str → Option Tok → List Tok
  | [], acc => flushTok acc
  | c :: cs, acc =>
      if isSpaceC c then flushTok acc ++ tokenizeAux cs none
      else if isWordChar c then
        match acc with
        | some (Tok.word w) => tokenizeAux cs (some (Tok.word (w ++ [upperC c])))
        | _ => flushTok acc ++ tokenizeAux cs (some (Tok.word [upperC c]))
      else
        match acc with
        | some (Tok.punct p) => tokenizeAux cs (some (Tok.punct (p ++ [c])))
        | _ => flushTok acc ++ tokenizeAux cs (some (Tok.punct [c]))

/-- Modelled from the spec (section 4.1): tokenize a single line, appending a
synthetic terminal period when the line ends in a word token. -/
def tokenizeLine (s : Str) : List Tok :=
  let ts := tokenizeAux s none
  match ts.getLast? with
  | some (Tok.word _) => ts ++ [Tok.punct ['.']]
  | _ => ts

/-- Word string of the error sentinel, symbol id 0. -/
def errWord : Str := "<ERROR>".toList

/-- Word string of the end-of-sentence sentinel, symbol id 1. -/
def finWord : Str := "<FIN>".toList

/-- Symbol id of the end-of-sentence sentinel. -/
def finSym : Nat := 1

/-- Modelled from the spec (section 3): an N-gram trie node carrying usage and
count, with children keyed by symbol id.  The schema file defining the
trie_nodes writes is absent from the sources, so the structure follows the
data model of the spec. -/
inductive Trie where
  | mk (usage : Nat) (count : Nat) (children : List (Nat × Trie))

/-- Usage field of a trie node. -/
def Trie.usage : Trie → Nat
  | Trie.mk u _ _ => u

/-- Count field of a trie node. -/
def Trie.count : Trie → Nat
  | Trie.mk _ c _ => c

/-- Children of a trie node. -/
def Trie.children : Trie → List (Nat × Trie)
  | Trie.mk _ _ cs => cs

mutual

/-- Boolean structural equality of tries. -/
def trieBeq : Trie → Trie → Bool
  | Trie.mk u c cs, Trie.mk u2 c2 cs2 =>
      u = u2 && c = c2 && childBeq cs cs2

/-- Boolean structural equality of child lists. -/
def childBeq : List (Nat × Trie) → List (Nat × Trie) → Bool
  | [], [] => true
  | (a, t) :: r, (a2, t2) :: r2 => a = a2 && trieBeq t t2 && childBeq r r2
  | _, _ => false

end

mutual

theorem trieBeq_iff : ∀ (t u : Trie), trieBeq t u = true ↔ t = u
  | Trie.mk a b cs, Trie.mk a2 b2 cs2 => by
      simp only [trieBeq, Bool.and_eq_true, decide_eq_true_eq, Trie.mk.injEq]
      rw [childBeq_iff cs cs2]
      tauto

theorem childBeq_iff : ∀ (cs ds : List (Nat × Trie)), childBeq cs ds = true ↔ cs = ds
  | [], [] => by simp [childBeq]
  | [], (a2, t2) :: r2 => by simp [childBeq]
  | (a, t) :: r, [] => by simp [childBeq]
  | (a, t) :: r, (a2, t2) :: r2 => by
      simp only [childBeq, Bool.and_eq_true, decide_eq_true_eq, List.cons.injEq,
        Prod.mk.injEq]
      rw [trieBeq_iff t t2, childBeq_iff r r2]

end

instance : DecidableEq Trie := fun t u =>
  decidable_of_iff (trieBeq t u = true) (trieBeq_iff t u)

/-- Fresh empty trie (a root with no observations). -/
def emptyTrie : Trie := Trie.mk 0 0 []

/-- Child of a node for a given symbol, an empty node when absent. -/
def getChild : List (Nat × Trie) → Nat → Trie
  | [], _ => emptyTrie
  | (a, t) :: rest, s => if a = s then t else getChild rest s

/-- Replace the child for a symbol, appending it when absent. -/
def setChild : List (Nat × Trie) → Nat → Trie → List (Nat × Trie)
  | [], s, t => [(s, t)]
  | (a, u) :: rest, s, t =>
      if a = s then (a, t) :: rest else (a, u) :: setChild rest s t

/-- Modelled from the spec (section 4.3): insert one context window into a
trie, incrementing usage along the whole path (root included) and count at
the leaf. -/
def insertPath : Trie → List Nat → Trie
  | t, [] => Trie.mk (t.usage + 1) (t.count + 1) t.children
  | t, s :: rest =>
      Trie.mk (t.usage + 1) t.count
        (setChild t.children s (insertPath (getChild t.children s) rest))

/-- All length-k contiguous windows of a list, in position order. -/
def slidingWindows (k : Nat) : List Nat → List (List Nat)
  | [] => []
  | x :: xs =>
      if k ≤ (x :: xs).length then (x :: xs).take k :: slidingWindows k xs
      else []

/-- Modelled from the spec (sections 3, 4.2): the model state is the symbol
table (index is the id; ids 0 and 1 are the sentinels) together with the
forward and backward tries.  The SQL schema holding these tables is absent
from the sources. -/
structure Model where
  symbols : List Str
  fwd : Trie
  bwd : Trie
deriving DecidableEq

/-- Initial model: sentinels interned, both tries empty. -/
def initModel : Model := ⟨[errWord, finWord], emptyTrie, emptyTrie⟩

/-- Modelled from the spec (section 4.2): return the id of a word, interning
it at the next free id when unseen. -/
def internWord (syms : List Str) (w : Str) : List Str × Nat :=
  match syms.findIdx? (fun v => v = w) with
  | some i => (syms, i)
  | none => (syms ++ [w], syms.length)

/-- Intern a list of words in order, returning the ids. -/
def internAll (syms : List Str) : List Str → List Str × List Nat
  | [] => (syms, [])
  | w :: ws =>
      let p := internWord syms w
      let q := internAll p.1 ws
      (q.1, p.2 :: q.2)

/-- Result of a learn call: the new model and the returned triple. -/
structure LearnResult where
  model : Model
  tokensLearned : Nat
  linesLearned : Nat
  linesProcessed : Nat
deriving DecidableEq

/-- Default model order N. -/
def defaultOrder : Nat := 5

/-- Modelled from the spec (section 4.3): learn a single already-stripped
sentence.  Tokens are interned eagerly; if the token count is at most the
order nothing else happens, otherwise all (order+1)-windows of the symbol
sequence with the FIN sentinel appended are inserted into the forward trie,
and symmetrically the windows of the reversed sequence into the backward
trie.  Returns the model and the tokens/lines learned contribution. -/
def learnLine (n : Nat) (m : Model) (line : Str) : Model × Nat × Nat :=
  let toks := tokenizeLine line
  let p := internAll m.symbols (toks.map Tok.str)
  if p.2.length ≤ n then
    (⟨p.1, m.fwd, m.bwd⟩, 0, 0)
  else
    let fwdW := slidingWindows (n + 1) (p.2 ++ [finSym])
    let bwdW := slidingWindows (n + 1) (p.2.reverse ++ [finSym])
    (⟨p.1, fwdW.foldl insertPath m.fwd, bwdW.foldl insertPath m.bwd⟩,
      p.2.length, 1)

/-- Skip test applied to a stripped line: empty lines and comment lines are
not processed. -/
def skipLine (s : Str) : Bool := s.isEmpty || s.head? = some '#'

/-- Process a single raw line of a learn call: strip it, skip blank and
comment lines, learn the rest, and accumulate the returned counters. -/
def procLine (n : Nat) (st : LearnResult) (line : Str) : LearnResult :=
  let s := stripWS line
  if skipLine s then st
  else
    let r := learnLine n st.model s
    ⟨r.1, st.tokensLearned + r.2.1, st.linesLearned + r.2.2,
      st.linesProcessed + 1⟩

/-- Modelled from the spec (sections 4.3, 6): megahal_learn over a full text;
lines are processed in source order. -/
def megahalLearn (n : Nat) (m : Model) (text : Str) : LearnResult :=
  (splitNL text).foldl (procLine n) ⟨m, 0, 0, 0⟩

/-- Model component of a learn call. -/
def learnState (n : Nat) (m : Model) (text : Str) : Model :=
  (megahalLearn n m text).model

/-- Per-line learning as the bulk-equivalence test performs it: strip the
line, skip it when blank or a comment, otherwise hand it to learn. -/
def indivLearn (n : Nat) (m : Model) (line : Str) : Model :=
  let s := stripWS line
  if skipLine s then m else learnState n m s

example : tokenizeLine ("hi".toList) = [Tok.word ['H', 'I'], Tok.punct ['.']] := by decide

example :
    (tokenizeLine ("The cat sat.".toList)).map Tok.str =
      ["THE".toList, "CAT".toList, "SAT".toList, ".".toList] := by decide

example : (megahalLearn 5 initModel ("hi".toList)).linesProcessed = 1 := by decide

example : (megahalLearn 5 initModel ("hi".toList)).tokensLearned = 0 := by decide

example :
    (megahalLearn 5 initModel ("The cat sat on the mat.".toList)).linesLearned = 1 := by
  decide

example : stripWS ("  a b  ".toList) = "a b".toList := by decide

example : splitNL ("ab\ncd".toList) = ["ab".toList, "cd".toList] := by decide

/-- Join a list of lines with single newline separators. -/
def joinNL : List Str → Str
  | [] => []
  | [l] => l
  | l :: l2 :: ls => l ++ '\n' :: joinNL (l2 :: ls)

theorem splitNL_ne_nil : ∀ s : Str, splitNL s ≠ []
  | [] => by simp [splitNL]
  | c :: cs => by
      by_cases h : c = '\n'
      · simp [splitNL, h]
      · simp only [splitNL, h, if_neg, ite_false]
        cases hs : splitNL cs <;> simp

theorem splitNL_append (a b : Str) :
    splitNL (a ++ '\n' :: b) = splitNL a ++ splitNL b := by
  induction a with
  | nil => simp [splitNL]
  | cons c a ih =>
      by_cases h : c = '\n'
      · subst h
        simp [splitNL, ih]
      · have hne := splitNL_ne_nil a
        cases hs : splitNL a with
        | nil => exact absurd hs hne
        | cons l ls =>
            simp only [List.cons_append, splitNL, h, ite_false, List.append_eq,
              ih, hs]

theorem splitNL_no_newline (l : Str) (h : '\n' ∉ l) : splitNL l = [l] := by
  induction l with
  | nil => rfl
  | cons c cs ih =>
      have hc : ¬c = '\n' := fun e => h (e ▸ List.mem_cons_self c cs)
      have hcs : '\n' ∉ cs := fun e => h (List.mem_cons_of_mem c e)
      simp only [splitNL, hc, ite_false, ih hcs]

theorem splitNL_joinNL : ∀ ls : List Str, ls ≠ [] → (∀ l ∈ ls, '\n' ∉ l) →
    splitNL (joinNL ls) = ls
  | [], h, _ => absurd rfl h
  | [l], _, hnl => by
      simp only [joinNL]
      exact splitNL_no_newline l (hnl l (List.mem_singleton_self l))
  | l :: l2 :: ls, _, hnl => by
      have ih := splitNL_joinNL (l2 :: ls) (by simp)
        (fun x hx => hnl x (List.mem_cons_of_mem l hx))
      simp only [joinNL, splitNL_append, ih,
        splitNL_no_newline l (hnl l (List.mem_cons_self l (l2 :: ls))),
        List.singleton_append]

theorem head_dropWhile_not (p : Char → Bool) :
    ∀ (l : Str) (c : Char), (l.dropWhile p).head? = some c → p c = false
  | [], c => by simp [List.dropWhile]
  | a :: l, c => by
      by_cases h : p a
      · rw [List.dropWhile_cons_of_pos h]
        exact head_dropWhile_not p l c
      · rw [List.dropWhile_cons_of_neg (by simpa using h)]
        intro e
        have hca : a = c := by simpa using e
        subst hca
        simpa using h

theorem dropWhile_eq_self_of_head (p : Char → Bool) (l : Str)
    (h : ∀ c, l.head? = some c → p c = false) : l.dropWhile p = l := by
  cases l with
  | nil => simp
  | cons a l =>
      have := h a rfl
      simp [List.dropWhile_cons, this]

theorem getLast?_rstrip_not (s : Str) (c : Char)
    (h : (rstrip s).getLast? = some c) : isSpaceC c = false := by
  unfold rstrip at h
  rw [List.getLast?_reverse] at h
  exact head_dropWhile_not isSpaceC s.reverse c h

theorem rstrip_eq_self_of_getLast (s : Str)
    (h : ∀ c, s.getLast? = some c → isSpaceC c = false) : rstrip s = s := by
  unfold rstrip
  rw [dropWhile_eq_self_of_head isSpaceC s.reverse
    (fun c hc => h c (by rwa [List.head?_reverse] at hc))]
  exact s.reverse_reverse

theorem rstrip_prefix_aux (s : Str) : ∃ t, s = rstrip s ++ t := by
  obtain ⟨t, ht⟩ := List.dropWhile_suffix (l := s.reverse) isSpaceC
  refine ⟨t.reverse, ?_⟩
  have : s.reverse.reverse = (t ++ s.reverse.dropWhile isSpaceC).reverse := by
    rw [ht]
  rw [List.reverse_reverse, List.reverse_append] at this
  exact this

theorem head?_append_left (a t : Str) (h : a ≠ []) :
    (a ++ t).head? = a.head? := by
  cases a with
  | nil => exact absurd rfl h
  | cons x xs => simp

theorem getLast?_append_right (t a : Str) (h : a ≠ []) :
    (t ++ a).getLast? = a.getLast? := by
  rw [← List.head?_reverse, ← List.head?_reverse a, List.reverse_append]
  exact head?_append_left a.reverse t.reverse (by simpa using h)

theorem head?_rstrip (s : Str) (h : rstrip s ≠ []) :
    (rstrip s).head? = s.head? := by
  obtain ⟨t, ht⟩ := rstrip_prefix_aux s
  conv_rhs => rw [ht]
  exact (head?_append_left (rstrip s) t h).symm

theorem stripWS_idem (s : Str) : stripWS (stripWS s) = stripWS s := by
  unfold stripWS
  by_cases hn : rstrip (lstrip s) = []
  · rw [hn]
    simp [lstrip, rstrip, List.dropWhile]
  · have h1 : lstrip (rstrip (lstrip s)) = rstrip (lstrip s) := by
      refine dropWhile_eq_self_of_head isSpaceC _ (fun c hc => ?_)
      rw [head?_rstrip (lstrip s) hn] at hc
      exact head_dropWhile_not isSpaceC s c hc
    rw [h1]
    exact rstrip_eq_self_of_getLast _ (fun c hc => getLast?_rstrip_not (lstrip s) c hc)

theorem mem_rstrip (s : Str) (c : Char) (h : c ∈ rstrip s) : c ∈ s := by
  obtain ⟨t, ht⟩ := rstrip_prefix_aux s
  rw [ht]
  exact List.mem_append_left t h

theorem mem_stripWS (s : Str) (c : Char) (h : c ∈ stripWS s) : c ∈ s := by
  have h1 : c ∈ lstrip s := mem_rstrip (lstrip s) c h
  exact (List.dropWhile_suffix isSpaceC).subset h1

/-- Model evolution of one raw line, independent of the counters. -/
def stepModel (n : Nat) (m : Model) (line : Str) : Model :=
  let s := stripWS line
  if skipLine s then m else (learnLine n m s).1

theorem procLine_model (n : Nat) (st : LearnResult) (l : Str) :
    (procLine n st l).model = stepModel n st.model l := by
  unfold procLine stepModel
  by_cases h : skipLine (stripWS l) <;> simp [h]

theorem foldl_procLine_model (n : Nat) :
    ∀ (lines : List Str) (st : LearnResult),
      (lines.foldl (procLine n) st).model = lines.foldl (stepModel n) st.model
  | [], st => rfl
  | l :: lines, st => by
      rw [List.foldl_cons, List.foldl_cons, foldl_procLine_model n lines,
        procLine_model]

theorem learnState_eq_foldl (n : Nat) (m : Model) (text : Str) :
    learnState n m text = (splitNL text).foldl (stepModel n) m := by
  unfold learnState megahalLearn
  exact foldl_procLine_model n (splitNL text) ⟨m, 0, 0, 0⟩

theorem indivLearn_eq_stepModel (n : Nat) (m : Model) (l : Str)
    (h : '\n' ∉ l) : indivLearn n m l = stepModel n m l := by
  unfold indivLearn stepModel
  by_cases hs : skipLine (stripWS l)
  · simp [hs]
  · simp only [hs, ite_false]
    rw [learnState_eq_foldl]
    have hnl : '\n' ∉ stripWS l := fun hm => h (mem_stripWS l '\n' hm)
    rw [splitNL_no_newline (stripWS l) hnl]
    simp [stepModel, stripWS_idem, hs]

theorem stepModel_empty_line (n : Nat) (m : Model) :
    stepModel n m [] = m := by
  simp [stepModel, stripWS, lstrip, rstrip, List.dropWhile, skipLine]

/--
C1: for every list of input lines (none containing a newline), learning the
lines joined by newlines in one call leaves the model — symbol table and both
tries, hence in particular the (tree, word-path) to (count, usage) mapping —
in a state identical to learning once per line in the same order, where each
line is first stripped of surrounding whitespace and skipped when empty or
starting with a comment mark.
-/
theorem foldl_indiv_eq_step (n : Nat) :
    ∀ (ls : List Str) (m : Model), (∀ l ∈ ls, '\n' ∉ l) →
      ls.foldl (indivLearn n) m = ls.foldl (stepModel n) m
  | [], _, _ => rfl
  | l :: rest, m, h => by
      rw [List.foldl_cons, List.foldl_cons,
        indivLearn_eq_stepModel n m l (h l (List.mem_cons_self l rest)),
        foldl_indiv_eq_step n rest _
          (fun x hx => h x (List.mem_cons_of_mem l hx))]

theorem learn_bulk_matches_individual (n : Nat) (m : Model) (ls : List Str)
    (h : ∀ l ∈ ls, '\n' ∉ l) :
    learnState n m (joinNL ls) = ls.foldl (indivLearn n) m := by
  rw [foldl_indiv_eq_step n ls m h, learnState_eq_foldl]
  cases hl : ls with
  | nil =>
      subst hl
      simp only [joinNL, splitNL, List.foldl_cons, List.foldl_nil,
        stepModel_empty_line]
  | cons a as =>
      rw [← hl, splitNL_joinNL ls (by simp [hl]) h]

/-- Witness for C1 at concrete inputs, mixing content lines, a comment, a
blank line, and a too-short line. -/
theorem learn_bulk_matches_individual_witness :
    (∀ l ∈ ["The cat sat on the mat.".toList, "# a comment".toList,
        "".toList, "hi".toList, "Dogs are wonderful pets.".toList],
      '\n' ∉ l) ∧
    learnState 5 initModel
        (joinNL ["The cat sat on the mat.".toList, "# a comment".toList,
          "".toList, "hi".toList, "Dogs are wonderful pets.".toList]) =
      ["The cat sat on the mat.".toList, "# a comment".toList, "".toList,
        "hi".toList, "Dogs are wonderful pets.".toList].foldl
        (indivLearn 5) initModel :=
  ⟨by decide, learn_bulk_matches_individual 5 initModel _ (by decide)⟩

/-- Stripped non-blank non-comment lines of a list of raw lines. -/
def cLines (ls : List Str) : List Str :=
  (ls.map stripWS).filter (fun s => !skipLine s)

/-- Content lines of a text: every non-empty line that does not start with a
comment mark after stripping whitespace. -/
def contentLines (text : Str) : List Str := cLines (splitNL text)

/-- Token count of a single line under line tokenization. -/
def lineTokenCount (s : Str) : Nat := (tokenizeLine s).length

theorem internAll_length : ∀ (syms : List Str) (ws : List Str),
    (internAll syms ws).2.length = ws.length
  | _, [] => rfl
  | syms, w :: ws => by
      simp only [internAll, List.length_cons]
      rw [internAll_length]

theorem learnLine_counts (n : Nat) (m : Model) (s : Str) :
    (learnLine n m s).2.1
        = (if n < lineTokenCount s then lineTokenCount s else 0) ∧
      (learnLine n m s).2.2 = (if n < lineTokenCount s then 1 else 0) := by
  unfold learnLine lineTokenCount
  have hlen : (internAll m.symbols ((tokenizeLine s).map Tok.str)).2.length
      = (tokenizeLine s).length := by
    rw [internAll_length, List.length_map]
  by_cases h : (internAll m.symbols ((tokenizeLine s).map Tok.str)).2.length ≤ n
  · have h2 : ¬n < (tokenizeLine s).length := by omega
    simp [h, h2]
  · have h2 : n < (tokenizeLine s).length := by omega
    have h3 : ¬(tokenizeLine s).length ≤ n := by omega
    simp [hlen, h3, h2]

theorem foldl_procLine_counts (n : Nat) :
    ∀ (lines : List Str) (st : LearnResult),
      (lines.foldl (procLine n) st).tokensLearned
          = st.tokensLearned + (((cLines lines).filter
              (fun s => n < lineTokenCount s)).map lineTokenCount).sum ∧
        (lines.foldl (procLine n) st).linesLearned
          = st.linesLearned + ((cLines lines).filter
              (fun s => n < lineTokenCount s)).length ∧
        (lines.foldl (procLine n) st).linesProcessed
          = st.linesProcessed + (cLines lines).length
  | [], st => by simp [cLines]
  | l :: lines, st => by
      by_cases h : skipLine (stripWS l)
      · have hstep : procLine n st l = st := by
          unfold procLine
          simp [h]
        have hcl : cLines (l :: lines) = cLines lines := by
          simp [cLines, h]
        rw [List.foldl_cons, hstep, hcl]
        exact foldl_procLine_counts n lines st
      · have hcl : cLines (l :: lines) = stripWS l :: cLines lines := by
          simp [cLines, h]
        obtain ⟨c1, c2⟩ := learnLine_counts n st.model (stripWS l)
        obtain ⟨i1, i2, i3⟩ := foldl_procLine_counts n lines (procLine n st l)
        have hm1 : (procLine n st l).tokensLearned
            = st.tokensLearned + (learnLine n st.model (stripWS l)).2.1 := by
          unfold procLine
          simp [h]
        have hm2 : (procLine n st l).linesLearned
            = st.linesLearned + (learnLine n st.model (stripWS l)).2.2 := by
          unfold procLine
          simp [h]
        have hm3 : (procLine n st l).linesProcessed = st.linesProcessed + 1 := by
          unfold procLine
          simp [h]
        rw [List.foldl_cons, hcl]
        refine ⟨?_, ?_, ?_⟩
        · rw [i1, hm1, c1]
          by_cases hl : n < lineTokenCount (stripWS l) <;> (simp [hl]; try omega)
        · rw [i2, hm2, c2]
          by_cases hl : n < lineTokenCount (stripWS l) <;> (simp [hl]; try omega)
        · rw [i3, hm3]
          simp [List.length_cons]
          omega

/--
C6: megahal_learn returns the triple (tokens_learned, lines_learned,
lines_processed): lines_processed counts every line that is non-empty and not
comment-marked after stripping, and lines_learned and tokens_learned count
only content lines whose token count exceeds the order; in particular the
three-content-line file of the training test reports lines_processed = 3.
-/
theorem learn_returns_counts (n : Nat) (m : Model) (text : Str) :
    ((megahalLearn n m text).tokensLearned
        = (((contentLines text).filter
            (fun s => n < lineTokenCount s)).map lineTokenCount).sum ∧
      (megahalLearn n m text).linesLearned
        = ((contentLines text).filter (fun s => n < lineTokenCount s)).length ∧
      (megahalLearn n m text).linesProcessed = (contentLines text).length) ∧
    (megahalLearn 5 initModel
        ("# This is a comment\nHello world.\n#Another comment\nGoodbye friend.\n\nFinal line.\n".toList)).linesProcessed
      = 3 := by
  constructor
  · have h := foldl_procLine_counts n (splitNL text) ⟨m, 0, 0, 0⟩
    unfold megahalLearn
    unfold contentLines
    simpa using h
  · decide

/--
C3: a single line (no embedded newline, not blank, not a comment after
stripping) whose tokenization yields at most order-many tokens leaves both
tries untouched and makes learn return the triple (0, 0, 1).
-/
theorem learn_short_input_noop (n : Nat) (m : Model) (line : Str)
    (hnl : '\n' ∉ line) (hskip : skipLine (stripWS line) = false)
    (hshort : lineTokenCount (stripWS line) ≤ n) :
    (megahalLearn n m line).model.fwd = m.fwd ∧
      (megahalLearn n m line).model.bwd = m.bwd ∧
      (megahalLearn n m line).tokensLearned = 0 ∧
      (megahalLearn n m line).linesLearned = 0 ∧
      (megahalLearn n m line).linesProcessed = 1 := by
  unfold megahalLearn
  rw [splitNL_no_newline line hnl]
  simp only [List.foldl_cons, List.foldl_nil]
  have hlen : (internAll m.symbols
      ((tokenizeLine (stripWS line)).map Tok.str)).2.length ≤ n := by
    rw [internAll_length, List.length_map]
    exact hshort
  unfold procLine learnLine
  simp [hskip, hlen]

/-- Witness for C3 on the concrete short input of the tests. -/
theorem learn_short_input_noop_witness :
    ('\n' ∉ ("hi".toList) ∧ skipLine (stripWS ("hi".toList)) = false ∧
        lineTokenCount (stripWS ("hi".toList)) ≤ 5) ∧
      (megahalLearn 5 initModel ("hi".toList)).model.fwd = initModel.fwd ∧
      (megahalLearn 5 initModel ("hi".toList)).model.bwd = initModel.bwd ∧
      (megahalLearn 5 initModel ("hi".toList)).tokensLearned = 0 ∧
      (megahalLearn 5 initModel ("hi".toList)).linesLearned = 0 ∧
      (megahalLearn 5 initModel ("hi".toList)).linesProcessed = 1 :=
  ⟨⟨by decide, by decide, by decide⟩,
    learn_short_input_noop 5 initModel ("hi".toList) (by decide) (by decide)
      (by decide)⟩

/-- Sum of the usage fields over a child list. -/
def childUsageSum (cs : List (Nat × Trie)) : Nat :=
  (cs.map (fun p => p.2.usage)).sum

theorem usage_insertPath (t : Trie) (p : List Nat) :
    (insertPath t p).usage = t.usage + 1 := by
  cases p <;> rfl

theorem usage_foldl_insertPath :
    ∀ (ws : List (List Nat)) (t : Trie),
      (ws.foldl insertPath t).usage = t.usage + ws.length
  | [], t => by simp
  | w :: ws, t => by
      rw [List.foldl_cons, usage_foldl_insertPath ws, usage_insertPath,
        List.length_cons]
      omega

theorem length_slidingWindows (k : Nat) :
    ∀ xs : List Nat, (slidingWindows (k + 1) xs).length = xs.length - k
  | [] => by simp [slidingWindows]
  | x :: xs => by
      simp only [slidingWindows, List.length_cons]
      by_cases h : k + 1 ≤ xs.length + 1
      · rw [if_pos h, List.length_cons, length_slidingWindows k xs]
        omega
      · rw [if_neg h]
        simp only [List.length_nil]
        omega

/-- Number of (order+1)-gram windows a raw learn line contributes to each
trie: zero when skipped or too short, otherwise the window count of the
token sequence extended by the FIN sentinel. -/
def lineWindows (n : Nat) (line : Str) : Nat :=
  let s := stripWS line
  if skipLine s then 0
  else if n < lineTokenCount s then lineTokenCount s + 1 - n else 0

/-- Total number of windows observed in each direction over a whole text. -/
def totalWindows (n : Nat) (text : Str) : Nat :=
  ((splitNL text).map (lineWindows n)).sum

theorem learnLine_usage (n : Nat) (m : Model) (s : Str) :
    ((learnLine n m s).1.fwd.usage
        = m.fwd.usage + (if n < lineTokenCount s then lineTokenCount s + 1 - n else 0)) ∧
      ((learnLine n m s).1.bwd.usage
        = m.bwd.usage + (if n < lineTokenCount s then lineTokenCount s + 1 - n else 0)) := by
  unfold learnLine
  have hlen : (internAll m.symbols ((tokenizeLine s).map Tok.str)).2.length
      = lineTokenCount s := by
    rw [internAll_length, List.length_map]
    rfl
  by_cases h : (internAll m.symbols ((tokenizeLine s).map Tok.str)).2.length ≤ n
  · have h2 : ¬n < lineTokenCount s := by omega
    simp [h, h2]
  · have h2 : n < lineTokenCount s := by omega
    simp only [h, ite_false, h2, ite_true]
    constructor
    · rw [usage_foldl_insertPath, length_slidingWindows, List.length_append,
        hlen]
      simp
    · rw [usage_foldl_insertPath, length_slidingWindows, List.length_append,
        List.length_reverse, hlen]
      simp

theorem stepModel_usage (n : Nat) (m : Model) (line : Str) :
    (stepModel n m line).fwd.usage = m.fwd.usage + lineWindows n line ∧
      (stepModel n m line).bwd.usage = m.bwd.usage + lineWindows n line := by
  unfold stepModel lineWindows
  by_cases h : skipLine (stripWS line)
  · simp [h]
  · simp only [h, ite_false]
    exact learnLine_usage n m (stripWS line)

theorem foldl_step_usage (n : Nat) :
    ∀ (lines : List Str) (m : Model),
      (lines.foldl (stepModel n) m).fwd.usage
          = m.fwd.usage + (lines.map (lineWindows n)).sum ∧
        (lines.foldl (stepModel n) m).bwd.usage
          = m.bwd.usage + (lines.map (lineWindows n)).sum
  | [], m => by simp
  | l :: lines, m => by
      obtain ⟨i1, i2⟩ := foldl_step_usage n lines (stepModel n m l)
      obtain ⟨s1, s2⟩ := stepModel_usage n m l
      rw [List.foldl_cons]
      constructor
      · rw [i1, s1]
        simp only [List.map_cons, List.sum_cons]
        omega
      · rw [i2, s2]
        simp only [List.map_cons, List.sum_cons]
        omega

/-- Model state after a sequence of learn calls starting from the fresh
model. -/
def learnMany (n : Nat) (texts : List Str) : Model :=
  texts.foldl (learnState n) initModel

/--
C2: after every completed learn call — that is, in every state reached by a
sequence of learn calls from the fresh model — the forward root usage and
backward root usage are the same integer, and each equals the total number of
(order+1)-gram windows observed in that direction.
-/
theorem root_usage_agree (n : Nat) (texts : List Str) :
    (learnMany n texts).fwd.usage = (texts.map (totalWindows n)).sum ∧
      (learnMany n texts).bwd.usage = (texts.map (totalWindows n)).sum := by
  unfold learnMany
  induction texts using List.reverseRecOn with
  | nil => constructor <;> rfl
  | append_singleton texts t ih =>
      obtain ⟨ih1, ih2⟩ := ih
      rw [List.foldl_append, List.foldl_cons, List.foldl_nil]
      rw [learnState_eq_foldl]
      obtain ⟨u1, u2⟩ := foldl_step_usage n (splitNL t)
        (texts.foldl (learnState n) initModel)
      rw [u1, u2, ih1, ih2]
      simp [totalWindows]

mutual

/-- Modelled from the spec (section 8): well-formedness of a trie node —
count bounded by usage, children usages summing to at most the usage, and
all children well-formed. -/
def wfTrie : Trie → Bool
  | Trie.mk u c cs =>
      decide (c ≤ u) && decide (childUsageSum cs ≤ u) && wfChildren cs

/-- Well-formedness of every child subtree. -/
def wfChildren : List (Nat × Trie) → Bool
  | [] => true
  | p :: cs => wfTrie p.2 && wfChildren cs

end

theorem childUsageSum_setChild :
    ∀ (cs : List (Nat × Trie)) (s : Nat) (t : Trie),
      childUsageSum (setChild cs s t) + (getChild cs s).usage
        = childUsageSum cs + t.usage
  | [], s, t => by
      simp [setChild, getChild, childUsageSum, emptyTrie, Trie.usage]
  | (a, u) :: rest, s, t => by
      by_cases h : a = s
      · simp only [setChild, getChild, h, ite_true, childUsageSum,
          List.map_cons, List.sum_cons]
        omega
      · have ih := childUsageSum_setChild rest s t
        simp only [setChild, getChild, h, ite_false, childUsageSum,
          List.map_cons, List.sum_cons] at ih ⊢
        omega

theorem wfTrie_getChild :
    ∀ (cs : List (Nat × Trie)) (s : Nat), wfChildren cs = true →
      wfTrie (getChild cs s) = true
  | [], _, _ => rfl
  | (a, u) :: rest, s, h => by
      simp only [wfChildren, Bool.and_eq_true] at h
      by_cases ha : a = s
      · simpa [getChild, ha] using h.1
      · simp only [getChild, ha, ite_false]
        exact wfTrie_getChild rest s h.2

theorem wfChildren_setChild :
    ∀ (cs : List (Nat × Trie)) (s : Nat) (t : Trie),
      wfChildren cs = true → wfTrie t = true →
        wfChildren (setChild cs s t) = true
  | [], s, t, _, ht => by simp [setChild, wfChildren, ht]
  | (a, u) :: rest, s, t, h, ht => by
      simp only [wfChildren, Bool.and_eq_true] at h
      by_cases ha : a = s
      · simp [setChild, ha, wfChildren, ht, h.2]
      · simp only [setChild, ha, ite_false, wfChildren, Bool.and_eq_true]
        exact ⟨h.1, wfChildren_setChild rest s t h.2 ht⟩

theorem wf_insertPath : ∀ (p : List Nat) (t : Trie),
    wfTrie t = true → wfTrie (insertPath t p) = true
  | [], Trie.mk u c cs, h => by
      simp only [wfTrie, Bool.and_eq_true, decide_eq_true_eq] at h ⊢
      simp only [insertPath, Trie.usage, Trie.count, Trie.children, wfTrie,
        Bool.and_eq_true, decide_eq_true_eq]
      exact ⟨⟨by omega, by omega⟩, h.2⟩
  | s :: rest, Trie.mk u c cs, h => by
      simp only [wfTrie, Bool.and_eq_true, decide_eq_true_eq] at h
      obtain ⟨⟨hcu, hsum⟩, hch⟩ := h
      have hgc := wfTrie_getChild cs s hch
      have hwf := wf_insertPath rest (getChild cs s) hgc
      have hset := childUsageSum_setChild cs s (insertPath (getChild cs s) rest)
      rw [usage_insertPath] at hset
      simp only [insertPath, Trie.usage, Trie.count, Trie.children, wfTrie,
        Bool.and_eq_true, decide_eq_true_eq]
      refine ⟨⟨by omega, by omega⟩, ?_⟩
      exact wfChildren_setChild cs s _ hch hwf

theorem wf_foldl_insertPath :
    ∀ (ws : List (List Nat)) (t : Trie),
      wfTrie t = true → wfTrie (ws.foldl insertPath t) = true
  | [], t, h => h
  | w :: ws, t, h => by
      rw [List.foldl_cons]
      exact wf_foldl_insertPath ws (insertPath t w) (wf_insertPath w t h)

theorem wf_stepModel (n : Nat) (m : Model) (line : Str)
    (h1 : wfTrie m.fwd = true) (h2 : wfTrie m.bwd = true) :
    wfTrie (stepModel n m line).fwd = true ∧
      wfTrie (stepModel n m line).bwd = true := by
  unfold stepModel learnLine
  by_cases h : skipLine (stripWS line)
  · simp [h, h1, h2]
  · simp only [h, ite_false]
    by_cases hl : (internAll m.symbols
        ((tokenizeLine (stripWS line)).map Tok.str)).2.length ≤ n
    · simp [hl, h1, h2]
    · simp only [hl, ite_false]
      exact ⟨wf_foldl_insertPath _ m.fwd h1, wf_foldl_insertPath _ m.bwd h2⟩

theorem wf_foldl_stepModel (n : Nat) :
    ∀ (lines : List Str) (m : Model),
      wfTrie m.fwd = true → wfTrie m.bwd = true →
        wfTrie ((lines.foldl (stepModel n) m)).fwd = true ∧
          wfTrie ((lines.foldl (stepModel n) m)).bwd = true
  | [], _, h1, h2 => ⟨h1, h2⟩
  | l :: lines, m, h1, h2 => by
      rw [List.foldl_cons]
      obtain ⟨s1, s2⟩ := wf_stepModel n m l h1 h2
      exact wf_foldl_stepModel n lines (stepModel n m l) s1 s2

theorem wf_learnState (n : Nat) (m : Model) (text : Str)
    (h1 : wfTrie m.fwd = true) (h2 : wfTrie m.bwd = true) :
    wfTrie (learnState n m text).fwd = true ∧
      wfTrie (learnState n m text).bwd = true := by
  rw [learnState_eq_foldl]
  exact wf_foldl_stepModel n (splitNL text) m h1 h2

mutual

/-- All nodes strictly below a node (the non-root nodes when applied to a
trie root). -/
def properNodes : Trie → List Trie
  | Trie.mk _ _ cs => nodesOfChildren cs

/-- All nodes of the subtrees in a child list. -/
def nodesOfChildren : List (Nat × Trie) → List Trie
  | [] => []
  | p :: cs => p.2 :: (properNodes p.2 ++ nodesOfChildren cs)

end

mutual

theorem wf_properNodes : ∀ (t : Trie), wfTrie t = true →
    ∀ v ∈ properNodes t,
      v.count ≤ v.usage ∧ childUsageSum v.children ≤ v.usage
  | Trie.mk u c cs, h => by
      simp only [wfTrie, Bool.and_eq_true, decide_eq_true_eq] at h
      simpa only [properNodes] using wf_nodesOfChildren cs h.2

theorem wf_nodesOfChildren : ∀ (cs : List (Nat × Trie)), wfChildren cs = true →
    ∀ v ∈ nodesOfChildren cs,
      v.count ≤ v.usage ∧ childUsageSum v.children ≤ v.usage
  | [], _ => by simp [nodesOfChildren]
  | p :: cs, h => by
      simp only [wfChildren, Bool.and_eq_true] at h
      intro v hv
      simp only [nodesOfChildren, List.mem_cons, List.mem_append] at hv
      rcases hv with hv | hv | hv
      · subst hv
        cases hp : p.2 with
        | mk u2 c2 cs2 =>
            have := h.1
            rw [hp] at this
            simp only [wfTrie, Bool.and_eq_true, decide_eq_true_eq] at this
            exact ⟨this.1.1, this.1.2⟩
      · exact wf_properNodes p.2 h.1 v hv
      · exact wf_nodesOfChildren cs h.2 v hv

end

/--
C4: in every model state reachable by a sequence of learn calls from the
fresh model, every non-root node of either trie has its count bounded by its
usage and the sum of its children's usages bounded by its usage.
-/
theorem reachable_nonroot_invariant (n : Nat) (texts : List Str) :
    ∀ v ∈ properNodes (learnMany n texts).fwd
        ++ properNodes (learnMany n texts).bwd,
      v.count ≤ v.usage ∧ childUsageSum v.children ≤ v.usage := by
  have hwf : wfTrie (learnMany n texts).fwd = true ∧
      wfTrie (learnMany n texts).bwd = true := by
    unfold learnMany
    induction texts using List.reverseRecOn with
    | nil => constructor <;> rfl
    | append_singleton texts t ih =>
        rw [List.foldl_append, List.foldl_cons, List.foldl_nil]
        exact wf_learnState n _ t ih.1 ih.2
  intro v hv
  rcases List.mem_append.mp hv with hv | hv
  · exact wf_properNodes _ hwf.1 v hv
  · exact wf_properNodes _ hwf.2 v hv

/-- Witness for C4 at a learned sentence and the first forward non-root
node. -/
theorem reachable_nonroot_invariant_witness :
    ((getChild (learnMany 5 ["The cat sat on the mat.".toList]).fwd.children 2)
          ∈ properNodes (learnMany 5 ["The cat sat on the mat.".toList]).fwd
            ++ properNodes (learnMany 5 ["The cat sat on the mat.".toList]).bwd) ∧
      (getChild (learnMany 5 ["The cat sat on the mat.".toList]).fwd.children 2).count
          ≤ (getChild (learnMany 5 ["The cat sat on the mat.".toList]).fwd.children 2).usage ∧
        childUsageSum (getChild (learnMany 5 ["The cat sat on the mat.".toList]).fwd.children 2).children
          ≤ (getChild (learnMany 5 ["The cat sat on the mat.".toList]).fwd.children 2).usage :=
  ⟨by decide,
    reachable_nonroot_invariant 5 ["The cat sat on the mat.".toList] _ (by decide)⟩

/-- Helper for whitespace splitting: the accumulator holds the current field
reversed. -/
def splitFieldsAux : Str → Str → List Str
  | [], acc => if acc.isEmpty then [] else [acc.reverse]
  | c :: cs, acc =>
      if isSpaceC c then
        if acc.isEmpty then splitFieldsAux cs []
        else acc.reverse :: splitFieldsAux cs []
      else splitFieldsAux cs (c :: acc)

/-- Python str.split() with no argument: split on runs of whitespace,
discarding empty fields. -/
def splitFields (s : Str) : List Str := splitFieldsAux s []

/-- Translation of the body of the swap-pair loop of load_support_data in
driver.py: the line is stripped; when non-empty and not starting with a
comment mark it is whitespace-split, and when at least two fields exist the
row (parts 0, parts 1) is appended. -/
def swapStep (rows : List (Str × Str)) (line : Str) : List (Str × Str) :=
  let s := stripWS line
  if s.isEmpty || s.head? = some '#' then rows
  else
    match splitFields s with
    | a :: b :: _ => rows ++ [(a, b)]
    | _ => rows

/-- Translation of the swap-pair loop of load_support_data in driver.py over
the whole file.  Python splitlines is modelled by newline splitting; the
possible extra empty line is skipped either way. -/
def swapRows (text : Str) : List (Str × Str) :=
  (splitNL text).foldl swapStep []

/-- Specification-side selection of a swap row from one raw line: the first
two fields of a stripped line that is non-empty, does not start with a
comment mark, and has at least two whitespace-separated fields. -/
def swapSel (line : Str) : Option (Str × Str) :=
  let s := stripWS line
  if ¬s.isEmpty ∧ s.head? ≠ some '#' ∧ 2 ≤ (splitFields s).length then
    some ((splitFields s).getD 0 [], (splitFields s).getD 1 [])
  else none

/-- Specification-side characterization of the whole swap table. -/
def swapRowsSpec (text : Str) : List (Str × Str) :=
  (splitNL text).filterMap swapSel

theorem swapStep_eq (rows : List (Str × Str)) (line : Str) :
    swapStep rows line = rows ++ (swapSel line).toList := by
  unfold swapStep swapSel
  by_cases h1 : (stripWS line).isEmpty
  · simp [h1]
  · by_cases h2 : (stripWS line).head? = some '#'
    · simp [h1, h2]
    · cases hp : splitFields (stripWS line) with
      | nil => simp [h1, h2, hp]
      | cons a tl =>
          cases tl with
          | nil => simp [h1, h2, hp]
          | cons b tl2 => simp [h1, h2, hp]

theorem foldl_swapStep :
    ∀ (lines : List Str) (rows : List (Str × Str)),
      lines.foldl swapStep rows = rows ++ lines.filterMap swapSel
  | [], rows => by simp
  | line :: lines, rows => by
      rw [List.foldl_cons, swapStep_eq, foldl_swapStep lines, List.filterMap_cons]
      cases swapSel line <;> simp

/--
C9: loading the swap file inserts a row (from_word, to_word) for exactly the
stripped lines that are non-empty, do not start with a comment mark, and
split into at least two whitespace-separated fields; the row holds the first
two fields (later fields are ignored) and lines with fewer than two fields
are skipped.
-/
theorem load_swap_rows_spec (text : Str) : swapRows text = swapRowsSpec text := by
  unfold swapRows swapRowsSpec
  rw [foldl_swapStep]
  simp

/-- Row of the trie_nodes relation as the driver queries it. -/
structure TrieRow where
  id : Nat
  tree : Char
  parentId : Option Nat
  symbol : Nat
  usage : Nat
  count : Nat
deriving DecidableEq

/-- Count of trie_nodes rows whose parent_id is not null. -/
def countNonRoot (rows : List TrieRow) : Nat :=
  (rows.filter (fun r => r.parentId.isSome)).length

/-- Translation of is_trained in driver.py: the count query either yields the
number of rows with non-null parent_id, or raises (for example when the
trie_nodes table does not exist yet); the except branch returns false. -/
def isTrainedDb (q : Except Str (List TrieRow)) : Bool :=
  match q with
  | Except.ok rows => decide (0 < countNonRoot rows)
  | Except.error _ => false

/-- Translation of the branch in driver.py main: support data is loaded and
training runs exactly when is_trained comes back false. -/
def mainTrains (q : Except Str (List TrieRow)) : Bool := !isTrainedDb q

/--
C10: is_trained is true exactly when the count of trie nodes with a non-null
parent_id is positive; any exception from the query (such as a missing
trie_nodes table) yields false instead of propagating, so the driver falls
through to loading support data and training.
-/
theorem is_trained_spec :
    (∀ rows : List TrieRow,
        isTrainedDb (Except.ok rows) = true ↔ 0 < countNonRoot rows) ∧
      (∀ e : Str, isTrainedDb (Except.error e) = false) ∧
      (∀ e : Str, mainTrains (Except.error e) = true) := by
  refine ⟨fun rows => ?_, fun e => rfl, fun e => rfl⟩
  simp [isTrainedDb]

theorem toNat_ofNat_valid (n : Nat) (h : n < 55296) :
    (Char.ofNat n).toNat = n := by
  have hv : n.isValidChar := Or.inl h
  simp [Char.ofNat, hv, Char.ofNatAux, Char.toNat, UInt32.toNat,
    BitVec.toNat_ofNatLt]

theorem char_eq_iff_toNat (a b : Char) : a = b ↔ a.toNat = b.toNat := by
  constructor
  · intro h
    rw [h]
  · intro h
    have ha := Char.ofNat_toNat a
    rw [← ha, h, Char.ofNat_toNat]

theorem isLowerC_toNat (c : Char) (h : isLowerC c = true) :
    97 ≤ c.toNat ∧ c.toNat ≤ 122 := by
  unfold isLowerC at h
  simp only [Bool.and_eq_true, decide_eq_true_eq] at h
  exact h

theorem upperC_toNat_of_lower (c : Char) (h : isLowerC c = true) :
    (upperC c).toNat = c.toNat - 32 := by
  obtain ⟨h1, h2⟩ := isLowerC_toNat c h
  unfold upperC
  rw [if_pos h]
  exact toNat_ofNat_valid (c.toNat - 32) (by omega)

theorem upperC_of_not_lower (c : Char) (h : isLowerC c = false) :
    upperC c = c := by
  unfold upperC
  rw [h]
  simp

theorem isUpperC_upperC (c : Char) (h : isAlphaC c = true) :
    isUpperC (upperC c) = true := by
  unfold isAlphaC at h
  rcases Bool.or_eq_true_iff.mp h with hu | hl
  · have hnl : isLowerC c = false := by
      rcases hb : isLowerC c with _ | _
      · rfl
      · obtain ⟨g1, g2⟩ := isLowerC_toNat c hb
        unfold isUpperC at hu
        simp only [Bool.and_eq_true, decide_eq_true_eq] at hu
        omega
    rw [upperC_of_not_lower c hnl]
    exact hu
  · obtain ⟨h1, h2⟩ := isLowerC_toNat c hl
    unfold isUpperC
    rw [upperC_toNat_of_lower c hl]
    simp only [Bool.and_eq_true, decide_eq_true_eq]
    omega

theorem isAlphaC_upperC (c : Char) (h : isAlphaC c = true) :
    isAlphaC (upperC c) = true := by
  unfold isAlphaC
  rw [isUpperC_upperC c h]
  rfl

theorem not_wordChar_not_lower (c : Char) (h : isWordChar c = false) :
    isLowerC c = false := by
  unfold isWordChar isAlphaC at h
  rcases hb : isLowerC c with _ | _
  · rfl
  · rw [hb] at h
    simp at h

theorem upperC_of_not_wordChar (c : Char) (h : isWordChar c = false) :
    upperC c = c :=
  upperC_of_not_lower c (not_wordChar_not_lower c h)

theorem isWordChar_upperC (c : Char) : isWordChar (upperC c) = isWordChar c := by
  rcases hl : isLowerC c with _ | _
  · rw [upperC_of_not_lower c hl]
  · have halpha : isAlphaC c = true := by
      unfold isAlphaC
      rw [hl]
      simp
    have hlhs : isWordChar (upperC c) = true := by
      unfold isWordChar isAlphaC
      rw [isUpperC_upperC c halpha]
      simp
    have hrhs : isWordChar c = true := by
      unfold isWordChar
      rw [halpha]
      simp
    rw [hlhs, hrhs]

theorem upperC_idem (c : Char) : upperC (upperC c) = upperC c := by
  rcases hl : isLowerC c with _ | _
  · rw [upperC_of_not_lower c hl]
    exact upperC_of_not_lower c hl
  · obtain ⟨h1, h2⟩ := isLowerC_toNat c hl
    have ht := upperC_toNat_of_lower c hl
    refine upperC_of_not_lower (upperC c) ?_
    rcases hb : isLowerC (upperC c) with _ | _
    · rfl
    · obtain ⟨g1, g2⟩ := isLowerC_toNat (upperC c) hb
      rw [ht] at g1
      omega

theorem space_toNat (c : Char) :
    isSpaceC c = true ↔ (c.toNat = 32 ∨ c.toNat = 9 ∨ c.toNat = 10 ∨ c.toNat = 13) := by
  have e1 : (' ' : Char).toNat = 32 := by decide
  have e2 : ('\t' : Char).toNat = 9 := by decide
  have e3 : ('\n' : Char).toNat = 10 := by decide
  have e4 : ('\r' : Char).toNat = 13 := by decide
  unfold isSpaceC
  simp only [Bool.or_eq_true, decide_eq_true_eq]
  rw [char_eq_iff_toNat c ' ', char_eq_iff_toNat c '\t', char_eq_iff_toNat c '\n',
    char_eq_iff_toNat c '\r', e1, e2, e3, e4]
  tauto

theorem wordChar_not_space (c : Char) (h : isWordChar c = true) :
    isSpaceC c = false := by
  unfold isWordChar isAlphaC isUpperC isLowerC isDigitC at h
  simp only [Bool.or_eq_true, Bool.and_eq_true, decide_eq_true_eq] at h
  rcases hs : isSpaceC c with _ | _
  · rfl
  · have := (space_toNat c).mp hs
    omega

theorem isSpaceC_upperC (c : Char) : isSpaceC (upperC c) = isSpaceC c := by
  rcases hl : isLowerC c with _ | _
  · rw [upperC_of_not_lower c hl]
  · obtain ⟨h1, h2⟩ := isLowerC_toNat c hl
    have ht := upperC_toNat_of_lower c hl
    have hs1 : isSpaceC (upperC c) = false := by
      rcases hs : isSpaceC (upperC c) with _ | _
      · rfl
      · have := (space_toNat (upperC c)).mp hs
        omega
    have hs2 : isSpaceC c = false := by
      rcases hs : isSpaceC c with _ | _
      · rfl
      · have := (space_toNat c).mp hs
        omega
    rw [hs1, hs2]

/-- Lexicon sets: banned, auxiliary and greeting words, and swap pairs. -/
structure Lex where
  banned : List Str
  auxWords : List Str
  greeting : List Str
  swap : List (Str × Str)

/-- Modelled from the spec (section 6): the bit-exact fallback string,
assembled with an explicit code 39 apostrophe. -/
def fallbackStr : Str :=
  "I don".toList ++ [Char.ofNat 39] ++ "t know enough to answer you yet!".toList

/-- Pseudo-random stream: the sampler consumes naturals from the front and
treats exhaustion as zero, keeping generation a pure function of the seed. -/
abbrev Rng := List Nat

/-- Draw the next pseudo-random natural. -/
def takeR : Rng → Nat × Rng
  | [] => (0, [])
  | r :: rs => (r, rs)

/-- Byte-order comparison used to pick the lexicographically smallest swap
target. -/
def strLe : Str → Str → Bool
  | [], _ => true
  | _ :: _, [] => false
  | a :: s, b :: t =>
      if a.toNat < b.toNat then true
      else if b.toNat < a.toNat then false
      else strLe s t

/-- Smallest element of a word list under byte order. -/
def minStr : List Str → Option Str
  | [] => none
  | s :: rest =>
      match minStr rest with
      | none => some s
      | some t => some (if strLe s t then s else t)

/-- Modelled from the spec (section 4.4, reference policy): replace a word by
the lexicographically smallest of its swap targets, if any. -/
def applySwap (swap : List (Str × Str)) (w : Str) : Str :=
  match minStr ((swap.filter (fun p => p.1 = w)).map (fun p => p.2)) with
  | some t => t
  | none => w

/-- Modelled from the spec (section 4.4, steps 1 and 2): the utterance word
tokens after swapping and dropping banned words. -/
def kwKept (lex : Lex) (utt : Str) : List Str :=
  ((((tokenizeLine utt).filter isWordTok).map Tok.str).map
    (applySwap lex.swap)).filter (fun w => !lex.banned.contains w)

/-- Modelled from the spec (section 4.4, steps 3 and 4): interned ids of the
non-auxiliary kept words; unknown words are excluded. -/
def kwPrimary (lex : Lex) (m : Model) (utt : Str) : List Nat :=
  ((kwKept lex utt).filter (fun w => !lex.auxWords.contains w)).filterMap
    (fun w => m.symbols.findIdx? (fun v => v = w))

/-- Modelled from the spec (section 4.4, steps 3 and 4): interned ids of the
auxiliary kept words. -/
def kwSecondary (lex : Lex) (m : Model) (utt : Str) : List Nat :=
  ((kwKept lex utt).filter (fun w => lex.auxWords.contains w)).filterMap
    (fun w => m.symbols.findIdx? (fun v => v = w))

/-- Modelled from the spec (section 4.4, step 5): keyword selection with the
auxiliary fallback. -/
def keywordIds (lex : Lex) (m : Model) (utt : Str) : List Nat :=
  if (kwPrimary lex m utt).isEmpty then kwSecondary lex m utt
  else kwPrimary lex m utt

/-- Child lookup returning none when the symbol has no branch. -/
def lookupChild : List (Nat × Trie) → Nat → Option Trie
  | [], _ => none
  | (a, t) :: cs, s => if a = s then some t else lookupChild cs s

/-- Follow a full symbol path from a node. -/
def followPath : Trie → List Nat → Option Trie
  | t, [] => some t
  | t, s :: rest =>
      match lookupChild t.children s with
      | none => none
      | some c => followPath c rest

/-- Modelled from the spec (section 4.5): deepest node reachable by a suffix
of the context that still offers children to sample. -/
def ctxNode (t : Trie) : List Nat → Option Trie
  | [] => if t.children.isEmpty then none else some t
  | s :: rest =>
      match followPath t (s :: rest) with
      | some node =>
          if node.children.isEmpty then ctxNode t rest else some node
      | none => ctxNode t rest

/-- Linear scan of the weighted sampling: pick the child under which the
running total first exceeds the draw. -/
def pickScan : Nat → List (Nat × Trie) → Option (Nat × Trie)
  | _, [] => none
  | r, c :: cs => if r < c.2.usage then some c else pickScan (r - c.2.usage) cs

/-- Modelled from the spec (section 9, RNG discipline): weighted sampling of
a child by usage via a uniform draw and a linear scan, falling back to the
first child when the scan overruns. -/
def sampleChild (t : Trie) (r : Nat) : Option (Nat × Trie) :=
  match pickScan (r % (t.usage + 1)) t.children with
  | some c => some c
  | none => t.children.head?

/-- Hard cap on reply length during extension. -/
def hardCap : Nat := 1024

/-- Keyword available for bias substitution at a node: not yet used, not in
the reply, and present among the children. -/
def biasKeyword (kws used reply : List Nat) (node : Trie) : Option Nat :=
  (kws.filter (fun k =>
    !used.contains k && !reply.contains k
      && (lookupChild node.children k).isSome)).head?

/-- Modelled from the spec (section 4.5): forward extension — walk the
forward trie along the deepest reachable context suffix, sample a child by
usage, prefer an unused keyword child, stop at FIN or when fuel runs out,
fail when no node offers children. -/
def extendF (t : Trie) (n : Nat) (kws : List Nat) :
    Nat → List Nat → List Nat → Rng → Option (List Nat × List Nat × Rng)
  | 0, reply, used, rng => some (reply, used, rng)
  | fuel + 1, reply, used, rng =>
      match ctxNode t (reply.drop (reply.length - n)) with
      | none => none
      | some node =>
          match sampleChild node (takeR rng).1 with
          | none => none
          | some c =>
              match biasKeyword kws used reply node with
              | some k =>
                  if k = finSym then some (reply, k :: used, (takeR rng).2)
                  else
                    extendF t n kws fuel (reply ++ [k]) (k :: used)
                      (takeR rng).2
              | none =>
                  if c.1 = finSym then some (reply, used, (takeR rng).2)
                  else
                    extendF t n kws fuel (reply ++ [c.1]) used (takeR rng).2

/-- Modelled from the spec (section 4.5): backward extension — symmetric,
walking the backward trie on the reversed head of the reply and prepending
sampled symbols until the FIN start marker. -/
def extendB (t : Trie) (n : Nat) (kws : List Nat) :
    Nat → List Nat → List Nat → Rng → Option (List Nat × List Nat × Rng)
  | 0, reply, used, rng => some (reply, used, rng)
  | fuel + 1, reply, used, rng =>
      match ctxNode t (reply.take n).reverse with
      | none => none
      | some node =>
          match sampleChild node (takeR rng).1 with
          | none => none
          | some c =>
              match biasKeyword kws used reply node with
              | some k =>
                  if k = finSym then some (reply, k :: used, (takeR rng).2)
                  else
                    extendB t n kws fuel (k :: reply) (k :: used) (takeR rng).2
              | none =>
                  if c.1 = finSym then some (reply, used, (takeR rng).2)
                  else extendB t n kws fuel (c.1 :: reply) used (takeR rng).2

/-- Seed of a candidate: a random keyword anchor, or a usage-weighted
forward root child when no keywords exist. -/
def seedCandidate (m : Model) (kws : List Nat) (rng : Rng) :
    Option (Nat × Rng) :=
  match kws with
  | [] =>
      match sampleChild m.fwd (takeR rng).1 with
      | none => none
      | some c => some (c.1, (takeR rng).2)
  | k :: ks =>
      some ((k :: ks).getD ((takeR rng).1 % (k :: ks).length) k, (takeR rng).2)

/-- Modelled from the spec (section 4.5): generate one candidate — seed with
a keyword anchor (or a usage-weighted forward root child when no keywords
exist), extend forward to FIN, then backward to FIN. -/
def genCandidate (m : Model) (n : Nat) (kws : List Nat) (rng : Rng) :
    Option (List Nat × Rng) :=
  match seedCandidate m kws rng with
  | none => none
  | some sp =>
      match extendF m.fwd n kws hardCap [sp.1] [sp.1] sp.2 with
      | none => none
      | some f =>
          match extendB m.bwd n kws hardCap f.1 f.2.1 f.2.2 with
          | none => none
          | some b => some (b.1, b.2.2)

/-- Word string of a symbol id. -/
def symWord (m : Model) (i : Nat) : Str := m.symbols.getD i []

/-- Modelled from the spec (section 4.8): rendered tokens of a candidate,
with the id 0 and id 1 sentinels dropped. -/
def renderToks (m : Model) (c : List Nat) : List Str :=
  (c.filter (fun i => 2 ≤ i)).map (symWord m)

/-- Classification of a rendered token by its first character. -/
def isWordStr (w : Str) : Bool :=
  match w.head? with
  | some c => isWordChar c
  | none => false

/-- Continuation of detokenization: a word token is preceded by a space, a
punctuation token is attached directly. -/
def detokRest : List Str → Str
  | [] => []
  | w :: ws => (if isWordStr w then ' ' :: w else w) ++ detokRest ws

/-- Modelled from the spec (section 4.8): detokenize — concatenate tokens,
inserting a space before every word token except the first token. -/
def detok : List Str → Str
  | [] => []
  | w :: ws => w ++ detokRest ws

/-- Modelled from the spec (section 4.8): uppercase the first alphabetic
character. -/
def sentenceCase : Str → Str
  | [] => []
  | c :: cs => if isAlphaC c then upperC c :: cs else c :: sentenceCase cs

/-- Terminal sentence punctuation. -/
def isTermPunct (c : Char) : Bool := c = '.' || c = '!' || c = '?'

/-- Modelled from the spec (section 4.8): append a period unless the last
non-whitespace character is already terminal punctuation. -/
def terminalize (s : Str) : Str :=
  match (rstrip s).getLast? with
  | some c => if isTermPunct c then s else s ++ ['.']
  | none => s ++ ['.']

/-- Modelled from the spec (section 4.8): full reconstruction of a candidate
symbol sequence into a sentence-cased, terminally punctuated string. -/
def reconstructSyms (m : Model) (c : List Nat) : Str :=
  terminalize (sentenceCase (detok (renderToks m c)))

/-- Word strings of a candidate, for the punctuation-insensitive echo test. -/
def wordStrings (m : Model) (c : List Nat) : List Str :=
  (renderToks m c).filter isWordStr

/-- Word strings of the utterance as tokenized. -/
def uttWordStrings (utt : Str) : List Str :=
  ((tokenizeLine utt).filter isWordTok).map Tok.str

/-- Modelled from the spec (section 4.7b): reject a candidate identical to
the utterance up to case and punctuation (word strings are stored uppercase,
so comparing them is case-insensitive), or whose reconstruction equals the
utterance exactly. -/
def rejectCand (m : Model) (utt : Str) (c : List Nat) : Bool :=
  wordStrings m c = uttWordStrings utt || reconstructSyms m c = utt

/-- Modelled from the spec (section 4.7): budgeted candidate search keeping
the best-scoring accepted candidate.  The real scorer computes a
floating-point cross-entropy; it is abstracted as an integer-valued scoring
argument, which none of the verified properties depend on. -/
def searchLoop (m : Model) (n : Nat) (score : List Nat → Int)
    (kws : List Nat) (utt : Str) :
    Nat → Rng → Option (List Nat × Int) → Option (List Nat)
  | 0, _, best => best.map (fun p => p.1)
  | b + 1, rng, best =>
      match genCandidate m n kws rng with
      | none => searchLoop m n score kws utt b rng.tail best
      | some cr =>
          if rejectCand m utt cr.1 then
            searchLoop m n score kws utt b cr.2 best
          else
            match best with
            | none => searchLoop m n score kws utt b cr.2 (some (cr.1, score cr.1))
            | some bp =>
                if bp.2 < score cr.1 then
                  searchLoop m n score kws utt b cr.2 (some (cr.1, score cr.1))
                else searchLoop m n score kws utt b cr.2 (some bp)

/-- Reply pipeline with the keyword set given explicitly (megahal_reply and
megahal_greet both funnel into this). -/
def replyWithKeywords (m : Model) (n : Nat) (score : List Nat → Int)
    (kws : List Nat) (utt : Str) (budget : Nat) (rng : Rng) : Str :=
  match searchLoop m n score kws utt budget rng none with
  | none => fallbackStr
  | some c => reconstructSyms m c

/-- Modelled from the spec (section 4.7): megahal_reply. -/
def megahalReply (lex : Lex) (m : Model) (n : Nat) (score : List Nat → Int)
    (utt : Str) (budget : Nat) (rng : Rng) : Str :=
  replyWithKeywords m n score (keywordIds lex m utt) utt budget rng

/-- Budget used by greet and converse. -/
def defaultBudget : Nat := 10

/-- Greeting words already interned in the model. -/
def knownGreetingIds (lex : Lex) (m : Model) : List Nat :=
  lex.greeting.filterMap (fun w => m.symbols.findIdx? (fun v => v = w))

/-- Modelled from the spec (section 6): megahal_greet — pick a random known
greeting word and run the reply pipeline with it as the sole keyword; with no
known greeting word return the fallback verbatim. -/
def megahalGreet (lex : Lex) (m : Model) (n : Nat) (score : List Nat → Int)
    (rng : Rng) : Str :=
  match knownGreetingIds lex m with
  | [] => fallbackStr
  | g :: gs =>
      let p := takeR rng
      replyWithKeywords m n score [(g :: gs).getD (p.1 % (g :: gs).length) g]
        [] defaultBudget p.2

/-- Modelled from the spec (section 6): megahal_converse — learn from the
input, then reply to it; returns the reply and the updated model. -/
def megahalConverse (lex : Lex) (n : Nat) (score : List Nat → Int)
    (m : Model) (text : Str) (rng : Rng) : Str × Model :=
  let m2 := learnState n m text
  (megahalReply lex m2 n score text defaultBudget rng, m2)

theorem ctxNode_of_no_children (t : Trie) (h : t.children = []) :
    ∀ ctx : List Nat, ctxNode t ctx = none
  | [] => by simp [ctxNode, h]
  | s :: rest => by
      have hf : followPath t (s :: rest) = none := by
        unfold followPath
        rw [h]
        rfl
      unfold ctxNode
      rw [hf]
      exact ctxNode_of_no_children t h rest

theorem extendF_none (t : Trie) (n : Nat) (kws : List Nat)
    (h : t.children = []) :
    ∀ fuel : Nat, fuel ≠ 0 → ∀ (reply used : List Nat) (rng : Rng),
      extendF t n kws fuel reply used rng = none
  | 0, h0 => absurd rfl h0
  | fuel + 1, _ => by
      intro reply used rng
      unfold extendF
      rw [ctxNode_of_no_children t h]

theorem genCandidate_none (m : Model) (n : Nat) (kws : List Nat)
    (h : m.fwd.children = []) (rng : Rng) :
    genCandidate m n kws rng = none := by
  unfold genCandidate
  cases kws with
  | nil =>
      have hs : sampleChild m.fwd (takeR rng).1 = none := by
        unfold sampleChild
        rw [h]
        rfl
      unfold seedCandidate
      rw [hs]
  | cons k ks =>
      simp only [seedCandidate]
      rw [extendF_none m.fwd n (k :: ks) h hardCap (by decide) _ _ _]

theorem searchLoop_gen_none (m : Model) (n : Nat) (score : List Nat → Int)
    (kws : List Nat) (utt : Str)
    (hg : ∀ r : Rng, genCandidate m n kws r = none) :
    ∀ (b : Nat) (rng : Rng) (best : Option (List Nat × Int)),
      searchLoop m n score kws utt b rng best = best.map (fun p => p.1)
  | 0, _, _ => rfl
  | b + 1, rng, best => by
      unfold searchLoop
      rw [hg rng]
      exact searchLoop_gen_none m n score kws utt hg b rng.tail best

theorem reply_empty_model (m : Model) (n : Nat) (score : List Nat → Int)
    (kws : List Nat) (utt : Str) (budget : Nat) (rng : Rng)
    (h : m.fwd.children = []) :
    replyWithKeywords m n score kws utt budget rng = fallbackStr := by
  unfold replyWithKeywords
  rw [searchLoop_gen_none m n score kws utt
    (fun r => genCandidate_none m n kws h r) budget rng none]
  rfl

/--
C5: on the fresh model, before any successful learning, greet returns
exactly the fallback string, and converse on the short input hi — which
learns nothing — returns exactly the same fallback string; both are total
functions, so no error reaches the caller.
-/
theorem empty_model_fallback :
    (∀ (lex : Lex) (score : List Nat → Int) (rng : Rng),
        megahalGreet lex initModel defaultOrder score rng = fallbackStr) ∧
      (∀ (lex : Lex) (score : List Nat → Int) (rng : Rng),
        (megahalConverse lex defaultOrder score initModel ("hi".toList) rng).1
          = fallbackStr) := by
  constructor
  · intro lex score rng
    unfold megahalGreet
    cases hk : knownGreetingIds lex initModel with
    | nil => rfl
    | cons g gs => exact reply_empty_model _ _ _ _ _ _ _ rfl
  · intro lex score rng
    have hfwd : (learnState defaultOrder initModel ("hi".toList)).fwd.children
        = [] := by
      have h := (learn_short_input_noop defaultOrder initModel ("hi".toList)
        (by decide) (by decide) (by decide)).1
      unfold learnState
      rw [h]
      rfl
    exact reply_empty_model (learnState defaultOrder initModel ("hi".toList))
      defaultOrder score
      (keywordIds lex (learnState defaultOrder initModel ("hi".toList))
        ("hi".toList))
      ("hi".toList) defaultBudget rng hfwd

theorem find?_alpha_sentenceCase (s : Str) :
    (sentenceCase s).find? isAlphaC = (s.find? isAlphaC).map upperC := by
  induction s with
  | nil => rfl
  | cons c cs ih =>
      rcases ha : isAlphaC c with _ | _
      · rw [show sentenceCase (c :: cs) = c :: sentenceCase cs by
          simp [sentenceCase, ha]]
        rw [List.find?_cons_of_neg _ (by simp [ha]),
          List.find?_cons_of_neg _ (by simp [ha]), ih]
      · rw [show sentenceCase (c :: cs) = upperC c :: cs by
          simp [sentenceCase, ha]]
        rw [List.find?_cons_of_pos _ (isAlphaC_upperC c ha),
          List.find?_cons_of_pos _ ha]
        rfl

theorem find?_alpha_append_dot (s : Str) :
    (s ++ ['.']).find? isAlphaC = s.find? isAlphaC := by
  induction s with
  | nil => decide
  | cons c cs ih =>
      rcases ha : isAlphaC c with _ | _
      · rw [List.cons_append, List.find?_cons_of_neg _ (by simp [ha]),
          List.find?_cons_of_neg _ (by simp [ha]), ih]
      · rw [List.cons_append, List.find?_cons_of_pos _ ha,
          List.find?_cons_of_pos _ ha]

theorem terminalize_cases (s : Str) :
    terminalize s = s ∨ terminalize s = s ++ ['.'] := by
  unfold terminalize
  split
  · next c hlast =>
      by_cases ht : isTermPunct c
      · rw [if_pos ht]
        left
        rfl
      · rw [if_neg ht]
        right
        rfl
  · right
    rfl

theorem find?_alpha_terminalize (s : Str) :
    (terminalize s).find? isAlphaC = s.find? isAlphaC := by
  rcases terminalize_cases s with h | h
  · rw [h]
  · rw [h, find?_alpha_append_dot]

theorem reconstruct_first_alpha_upper (m : Model) (c : List Nat) (ch : Char)
    (h : (reconstructSyms m c).find? isAlphaC = some ch) :
    isUpperC ch = true := by
  unfold reconstructSyms at h
  rw [find?_alpha_terminalize, find?_alpha_sentenceCase] at h
  cases h0 : (detok (renderToks m c)).find? isAlphaC with
  | none =>
      rw [h0] at h
      simp at h
  | some c0 =>
      rw [h0] at h
      simp only [Option.map_some', Option.some.injEq] at h
      have ha : isAlphaC c0 = true := List.find?_some h0
      rw [← h]
      exact isUpperC_upperC c0 ha

theorem rstrip_append_nonspace (s : Str) (d : Char) (h : isSpaceC d = false) :
    rstrip (s ++ [d]) = s ++ [d] := by
  refine rstrip_eq_self_of_getLast (s ++ [d]) (fun ch hc => ?_)
  rw [getLast?_append_right s [d] (by simp)] at hc
  simp only [List.getLast?_singleton, Option.some.injEq] at hc
  rw [hc] at h
  exact h

theorem terminalize_ends_punct (s : Str) :
    ∃ ch, (rstrip (terminalize s)).getLast? = some ch ∧ isTermPunct ch = true := by
  have hdot : ∃ ch, (rstrip (s ++ ['.'])).getLast? = some ch ∧
      isTermPunct ch = true := by
    refine ⟨'.', ?_, by decide⟩
    rw [rstrip_append_nonspace s '.' (by decide),
      getLast?_append_right s ['.'] (by simp)]
    rfl
  unfold terminalize
  split
  · next c hlast =>
      by_cases ht : isTermPunct c
      · rw [if_pos ht]
        exact ⟨c, hlast, ht⟩
      · rw [if_neg ht]
        exact hdot
  · exact hdot

/--
C7: every non-fallback string produced by the reply pipeline has its first
alphabetic character uppercase, and after trimming trailing whitespace its
last character is terminal punctuation (period, exclamation or question
mark).
-/
theorem reply_formatted (m : Model) (n : Nat) (score : List Nat → Int)
    (kws : List Nat) (utt : Str) (budget : Nat) (rng : Rng)
    (h : replyWithKeywords m n score kws utt budget rng ≠ fallbackStr) :
    (∀ ch, (replyWithKeywords m n score kws utt budget rng).find? isAlphaC
        = some ch → isUpperC ch = true) ∧
      (∃ ch, (rstrip (replyWithKeywords m n score kws utt budget rng)).getLast?
          = some ch ∧ isTermPunct ch = true) := by
  unfold replyWithKeywords at h ⊢
  cases hs : searchLoop m n score kws utt budget rng none with
  | none =>
      rw [hs] at h
      exact absurd rfl h
  | some c =>
      exact ⟨fun ch hc => reconstruct_first_alpha_upper m c ch hc,
        terminalize_ends_punct _⟩

/-- Wellformed word token: nonempty, every character alphanumeric and fixed
by uppercasing. -/
def wfWordStr (w : Str) : Bool :=
  !w.isEmpty && w.all (fun c => isWordChar c && decide (upperC c = c))

/-- Wellformed punctuation token: nonempty, no alphanumeric and no
whitespace character. -/
def wfPunctStr (w : Str) : Bool :=
  !w.isEmpty && w.all (fun c => !isWordChar c && !isSpaceC c)

/-- Wellformed rendered token. -/
def wfTokStr (w : Str) : Bool := wfWordStr w || wfPunctStr w

/-- Characters acceptable as a punctuation run. -/
def allPunctChars (p : Str) : Prop :=
  ∀ c ∈ p, isWordChar c = false ∧ isSpaceC c = false

/-- Wellformedness of a whole rendered token list. -/
def allWfToks (ws : List Str) : Prop := ∀ w ∈ ws, wfTokStr w = true

/-- Word strings among a token sequence. -/
def wordsOfToks (ts : List Tok) : List Str :=
  ts.filterMap (fun t =>
    match t with
    | Tok.word s => some s
    | Tok.punct _ => none)

theorem wfWordStr_spec (w : Str) (h : wfWordStr w = true) :
    w ≠ [] ∧ ∀ c ∈ w, isWordChar c = true ∧ upperC c = c := by
  unfold wfWordStr at h
  simp only [Bool.and_eq_true, List.all_eq_true, Bool.not_eq_true',
    decide_eq_true_eq] at h
  constructor
  · intro he
    rw [he] at h
    simp at h
  · intro c hc
    have := h.2 c hc
    simpa using this

theorem wfPunctStr_spec (w : Str) (h : wfPunctStr w = true) :
    w ≠ [] ∧ ∀ c ∈ w, isWordChar c = false ∧ isSpaceC c = false := by
  unfold wfPunctStr at h
  simp only [Bool.and_eq_true, List.all_eq_true, Bool.not_eq_true',
    decide_eq_true_eq] at h
  constructor
  · intro he
    rw [he] at h
    simp at h
  · intro c hc
    have := h.2 c hc
    simpa using this

theorem wfWordStr_isWordStr (w : Str) (h : wfWordStr w = true) :
    isWordStr w = true := by
  obtain ⟨hne, hall⟩ := wfWordStr_spec w h
  cases w with
  | nil => exact absurd rfl hne
  | cons c cs =>
      unfold isWordStr
      simp only [List.head?_cons]
      exact (hall c (List.mem_cons_self c cs)).1

theorem wfPunctStr_isWordStr (w : Str) (h : wfPunctStr w = true) :
    isWordStr w = false := by
  obtain ⟨hne, hall⟩ := wfPunctStr_spec w h
  cases w with
  | nil => exact absurd rfl hne
  | cons c cs =>
      unfold isWordStr
      simp only [List.head?_cons]
      exact (hall c (List.mem_cons_self c cs)).1

theorem tokenizeAux_space (c : Char) (rest : Str) (acc : Option Tok)
    (h : isSpaceC c = true) :
    tokenizeAux (c :: rest) acc = flushTok acc ++ tokenizeAux rest none := by
  simp only [tokenizeAux, h, ite_true]

theorem tokenizeAux_word_run :
    ∀ (w : Str), (∀ c ∈ w, isWordChar c = true ∧ upperC c = c) →
      ∀ (cs : Str) (u : Str),
        tokenizeAux (w ++ cs) (some (Tok.word u))
          = tokenizeAux cs (some (Tok.word (u ++ w)))
  | [], _, cs, u => by simp
  | c :: w2, h, cs, u => by
      have hc := h c (List.mem_cons_self c w2)
      have hsp : isSpaceC c = false := wordChar_not_space c hc.1
      have ih := tokenizeAux_word_run w2
        (fun d hd => h d (List.mem_cons_of_mem c hd)) cs (u ++ [c])
      rw [List.cons_append]
      simp only [tokenizeAux, hsp, hc.1, Bool.false_eq_true, ite_false,
        ite_true]
      rw [hc.2, ih]
      have he : (u ++ [c]) ++ w2 = u ++ c :: w2 := by simp
      rw [he]

theorem tokenizeAux_punct_run :
    ∀ (w : Str), allPunctChars w →
      ∀ (cs : Str) (u : Str),
        tokenizeAux (w ++ cs) (some (Tok.punct u))
          = tokenizeAux cs (some (Tok.punct (u ++ w)))
  | [], _, cs, u => by simp
  | c :: w2, h, cs, u => by
      have hc := h c (List.mem_cons_self c w2)
      have ih := tokenizeAux_punct_run w2
        (fun d hd => h d (List.mem_cons_of_mem c hd)) cs (u ++ [c])
      rw [List.cons_append]
      simp only [tokenizeAux, hc.1, hc.2, Bool.false_eq_true, ite_false]
      rw [ih]
      have he : (u ++ [c]) ++ w2 = u ++ c :: w2 := by simp
      rw [he]

theorem tokenizeAux_word_start :
    ∀ (w : Str), w ≠ [] → (∀ c ∈ w, isWordChar c = true ∧ upperC c = c) →
      ∀ (cs : Str) (acc : Option Tok), (∀ u, acc ≠ some (Tok.word u)) →
        tokenizeAux (w ++ cs) acc
          = flushTok acc ++ tokenizeAux cs (some (Tok.word w))
  | [], hne, _, _, _, _ => absurd rfl hne
  | c :: w2, _, h, cs, acc, hacc => by
      have hc := h c (List.mem_cons_self c w2)
      have hsp : isSpaceC c = false := wordChar_not_space c hc.1
      have hrun := tokenizeAux_word_run w2
        (fun d hd => h d (List.mem_cons_of_mem c hd)) cs [c]
      rw [List.singleton_append] at hrun
      rw [List.cons_append]
      cases acc with
      | none =>
          simp only [tokenizeAux, hsp, hc.1, Bool.false_eq_true, ite_false,
            ite_true, flushTok, List.nil_append]
          rw [hc.2, hrun]
      | some t =>
          cases t with
          | word u => exact absurd rfl (hacc u)
          | punct u =>
              simp only [tokenizeAux, hsp, hc.1, Bool.false_eq_true,
                ite_false, ite_true, flushTok]
              rw [hc.2, hrun]

theorem tokenizeAux_punct_start :
    ∀ (w : Str), w ≠ [] → allPunctChars w →
      ∀ (cs : Str) (acc : Option Tok), (∀ u, acc ≠ some (Tok.punct u)) →
        tokenizeAux (w ++ cs) acc
          = flushTok acc ++ tokenizeAux cs (some (Tok.punct w))
  | [], hne, _, _, _, _ => absurd rfl hne
  | c :: w2, _, h, cs, acc, hacc => by
      have hc := h c (List.mem_cons_self c w2)
      have hrun := tokenizeAux_punct_run w2
        (fun d hd => h d (List.mem_cons_of_mem c hd)) cs [c]
      rw [List.singleton_append] at hrun
      rw [List.cons_append]
      cases acc with
      | none =>
          simp only [tokenizeAux, hc.1, hc.2, Bool.false_eq_true, ite_false,
            flushTok, List.nil_append]
          rw [hrun]
      | some t =>
          cases t with
          | punct u => exact absurd rfl (hacc u)
          | word u =>
              simp only [tokenizeAux, hc.1, hc.2, Bool.false_eq_true,
                ite_false, flushTok]
              rw [hrun]

theorem wordsOf_punct_tail_word :
    ∀ (p : Str), allPunctChars p → ∀ u : Str,
      wordsOfToks (tokenizeAux p (some (Tok.word u))) = [u]
  | [], _, u => rfl
  | c :: p2, h, u => by
      have hstart := tokenizeAux_punct_start (c :: p2) (by simp) h []
        (some (Tok.word u)) (fun v => by simp)
      rw [show (c :: p2 : Str) = (c :: p2) ++ [] by simp, hstart]
      rfl

theorem wordsOf_punct_tail_punct :
    ∀ (p : Str), allPunctChars p → ∀ q : Str,
      wordsOfToks (tokenizeAux p (some (Tok.punct q))) = []
  | [], _, q => rfl
  | c :: p2, h, q => by
      have hrun := tokenizeAux_punct_run (c :: p2) h [] q
      rw [show (c :: p2 : Str) = (c :: p2) ++ [] by simp, hrun]
      rfl

theorem wordsOf_punct_tail_none :
    ∀ (p : Str), allPunctChars p →
      wordsOfToks (tokenizeAux p none) = []
  | [], _ => rfl
  | c :: p2, h => by
      have hstart := tokenizeAux_punct_start (c :: p2) (by simp) h []
        none (fun v => by simp)
      rw [show (c :: p2 : Str) = (c :: p2) ++ [] by simp, hstart]
      rfl

theorem wordsOfToks_append (a b : List Tok) :
    wordsOfToks (a ++ b) = wordsOfToks a ++ wordsOfToks b := by
  simp [wordsOfToks]

mutual

theorem wordsOf_detokRest_word :
    ∀ (ws : List Str), allWfToks ws → ∀ (p : Str), allPunctChars p →
      ∀ u : Str,
        wordsOfToks (tokenizeAux (detokRest ws ++ p) (some (Tok.word u)))
          = u :: ws.filter isWordStr
  | [], _, p, hp, u => by
      simp only [detokRest, List.nil_append, List.filter_nil]
      exact wordsOf_punct_tail_word p hp u
  | w :: ws2, hwf, p, hp, u => by
      have hw := hwf w (List.mem_cons_self w ws2)
      have hwf2 : allWfToks ws2 :=
        fun x hx => hwf x (List.mem_cons_of_mem w hx)
      rcases Bool.or_eq_true_iff.mp hw with hword | hpunct
      · have hws : isWordStr w = true := wfWordStr_isWordStr w hword
        obtain ⟨hne, hall⟩ := wfWordStr_spec w hword
        simp only [detokRest, hws, ite_true, List.cons_append,
          List.append_assoc]
        rw [tokenizeAux_space ' ' _ _ (by decide),
          tokenizeAux_word_start w hne hall (detokRest ws2 ++ p) none
            (by simp),
          wordsOfToks_append]
        simp only [flushTok, List.nil_append]
        rw [wordsOf_detokRest_word ws2 hwf2 p hp w]
        simp [wordsOfToks, List.filter_cons, hws]
      · have hws : isWordStr w = false := wfPunctStr_isWordStr w hpunct
        obtain ⟨hne, hall⟩ := wfPunctStr_spec w hpunct
        have hpc : allPunctChars w := fun c hc => hall c hc
        simp only [detokRest, hws, Bool.false_eq_true, ite_false,
          List.append_assoc]
        rw [tokenizeAux_punct_start w hne hpc (detokRest ws2 ++ p)
            (some (Tok.word u)) (by simp),
          wordsOfToks_append]
        simp only [flushTok]
        rw [wordsOf_detokRest_punct ws2 hwf2 p hp w]
        simp [wordsOfToks, List.filter_cons, hws]

theorem wordsOf_detokRest_punct :
    ∀ (ws : List Str), allWfToks ws → ∀ (p : Str), allPunctChars p →
      ∀ q : Str,
        wordsOfToks (tokenizeAux (detokRest ws ++ p) (some (Tok.punct q)))
          = ws.filter isWordStr
  | [], _, p, hp, q => by
      simp only [detokRest, List.nil_append, List.filter_nil]
      exact wordsOf_punct_tail_punct p hp q
  | w :: ws2, hwf, p, hp, q => by
      have hw := hwf w (List.mem_cons_self w ws2)
      have hwf2 : allWfToks ws2 :=
        fun x hx => hwf x (List.mem_cons_of_mem w hx)
      rcases Bool.or_eq_true_iff.mp hw with hword | hpunct
      · have hws : isWordStr w = true := wfWordStr_isWordStr w hword
        obtain ⟨hne, hall⟩ := wfWordStr_spec w hword
        simp only [detokRest, hws, ite_true, List.cons_append,
          List.append_assoc]
        rw [tokenizeAux_space ' ' _ _ (by decide),
          tokenizeAux_word_start w hne hall (detokRest ws2 ++ p) none
            (by simp),
          wordsOfToks_append]
        simp only [flushTok, List.nil_append]
        rw [wordsOf_detokRest_word ws2 hwf2 p hp w]
        simp [wordsOfToks, List.filter_cons, hws]
      · have hws : isWordStr w = false := wfPunctStr_isWordStr w hpunct
        obtain ⟨hne, hall⟩ := wfPunctStr_spec w hpunct
        have hpc : allPunctChars w := fun c hc => hall c hc
        simp only [detokRest, hws, Bool.false_eq_true, ite_false,
          List.append_assoc]
        rw [tokenizeAux_punct_run w hpc (detokRest ws2 ++ p) q]
        rw [wordsOf_detokRest_punct ws2 hwf2 p hp (q ++ w)]
        simp [List.filter_cons, hws]

end

theorem wordsOf_detok (ws : List Str) (hwf : allWfToks ws) (p : Str)
    (hp : allPunctChars p) :
    wordsOfToks (tokenizeAux (detok ws ++ p) none) = ws.filter isWordStr := by
  cases ws with
  | nil =>
      simp only [detok, List.nil_append, List.filter_nil]
      exact wordsOf_punct_tail_none p hp
  | cons w ws2 =>
      have hw := hwf w (List.mem_cons_self w ws2)
      have hwf2 : allWfToks ws2 :=
        fun x hx => hwf x (List.mem_cons_of_mem w hx)
      rcases Bool.or_eq_true_iff.mp hw with hword | hpunct
      · have hws : isWordStr w = true := wfWordStr_isWordStr w hword
        obtain ⟨hne, hall⟩ := wfWordStr_spec w hword
        simp only [detok, List.append_assoc]
        rw [tokenizeAux_word_start w hne hall (detokRest ws2 ++ p) none
            (by simp)]
        simp only [flushTok, List.nil_append]
        rw [wordsOf_detokRest_word ws2 hwf2 p hp w]
        simp [List.filter_cons, hws]
      · have hws : isWordStr w = false := wfPunctStr_isWordStr w hpunct
        obtain ⟨hne, hall⟩ := wfPunctStr_spec w hpunct
        have hpc : allPunctChars w := fun c hc => hall c hc
        simp only [detok, List.append_assoc]
        rw [tokenizeAux_punct_start w hne hpc (detokRest ws2 ++ p) none
            (by simp)]
        simp only [flushTok, List.nil_append]
        rw [wordsOf_detokRest_punct ws2 hwf2 p hp w]
        simp [List.filter_cons, hws]

theorem tokenizeAux_upperS :
    ∀ (s : Str) (acc : Option Tok),
      tokenizeAux (upperS s) acc = tokenizeAux s acc
  | [], _ => rfl
  | c :: cs, acc => by
      have h1 := isSpaceC_upperC c
      have h2 := isWordChar_upperC c
      have h3 := upperC_idem c
      have ih := tokenizeAux_upperS cs
      show tokenizeAux (upperC c :: upperS cs) acc = tokenizeAux (c :: cs) acc
      by_cases hsp : isSpaceC c = true
      · rw [tokenizeAux_space _ _ _ (by rw [h1]; exact hsp),
          tokenizeAux_space _ _ _ hsp, ih none]
      · have hsp' : isSpaceC c = false := by simpa using hsp
        have hspu : isSpaceC (upperC c) = false := by rw [h1]; exact hsp'
        by_cases hwc : isWordChar c = true
        · have hwcu : isWordChar (upperC c) = true := by rw [h2]; exact hwc
          cases acc with
          | none =>
              simp only [tokenizeAux, hspu, hsp', hwcu, hwc,
                Bool.false_eq_true, ite_false, ite_true, h3, flushTok,
                List.nil_append]
              exact ih (some (Tok.word [upperC c]))
          | some t =>
              cases t with
              | word w =>
                  simp only [tokenizeAux, hspu, hsp', hwcu, hwc,
                    Bool.false_eq_true, ite_false, ite_true, h3]
                  exact ih (some (Tok.word (w ++ [upperC c])))
              | punct q =>
                  simp only [tokenizeAux, hspu, hsp', hwcu, hwc,
                    Bool.false_eq_true, ite_false, ite_true, h3, flushTok]
                  rw [ih (some (Tok.word [upperC c]))]
        · have hwc' : isWordChar c = false := by simpa using hwc
          have hcc : upperC c = c := upperC_of_not_wordChar c hwc'
          rw [hcc]
          cases acc with
          | none =>
              simp only [tokenizeAux, hsp', hwc', Bool.false_eq_true,
                ite_false, flushTok, List.nil_append]
              exact ih (some (Tok.punct [c]))
          | some t =>
              cases t with
              | word w =>
                  simp only [tokenizeAux, hsp', hwc', Bool.false_eq_true,
                    ite_false, flushTok]
                  rw [ih (some (Tok.punct [c]))]
              | punct q =>
                  simp only [tokenizeAux, hsp', hwc', Bool.false_eq_true,
                    ite_false]
                  exact ih (some (Tok.punct (q ++ [c])))

theorem filter_map_eq_wordsOf :
    ∀ ts : List Tok, (ts.filter isWordTok).map Tok.str = wordsOfToks ts
  | [] => rfl
  | t :: ts => by
      have ih := filter_map_eq_wordsOf ts
      cases t with
      | word s =>
          rw [show wordsOfToks (Tok.word s :: ts) = s :: wordsOfToks ts
              from rfl,
            show List.filter isWordTok (Tok.word s :: ts)
                = Tok.word s :: List.filter isWordTok ts
              from by simp [List.filter_cons, isWordTok],
            List.map_cons, ih]
          rfl
      | punct s =>
          rw [show wordsOfToks (Tok.punct s :: ts) = wordsOfToks ts from rfl,
            show List.filter isWordTok (Tok.punct s :: ts)
                = List.filter isWordTok ts
              from by simp [List.filter_cons, isWordTok]]
          exact ih

theorem wordsOf_tokenizeLine (utt : Str) :
    wordsOfToks (tokenizeLine utt) = wordsOfToks (tokenizeAux utt none) := by
  rw [show tokenizeLine utt = (match (tokenizeAux utt none).getLast? with
      | some (Tok.word _) => tokenizeAux utt none ++ [Tok.punct ['.']]
      | _ => tokenizeAux utt none) from rfl]
  cases h : (tokenizeAux utt none).getLast? with
  | none => rfl
  | some t =>
      cases t with
      | word s =>
          rw [wordsOfToks_append]
          simp [wordsOfToks]
      | punct s => rfl

theorem uttWordStrings_eq (utt : Str) :
    uttWordStrings utt = wordsOfToks (tokenizeAux utt none) := by
  unfold uttWordStrings
  rw [filter_map_eq_wordsOf, wordsOf_tokenizeLine]

theorem upperS_of_invariant :
    ∀ s : Str, (∀ c ∈ s, upperC c = c) → upperS s = s
  | [], _ => rfl
  | c :: cs, h => by
      show upperC c :: upperS cs = c :: cs
      rw [h c (List.mem_cons_self c cs),
        upperS_of_invariant cs (fun d hd => h d (List.mem_cons_of_mem c hd))]

theorem sentenceCase_of_invariant :
    ∀ s : Str, (∀ c ∈ s, upperC c = c) → sentenceCase s = s
  | [], _ => rfl
  | c :: cs, h => by
      unfold sentenceCase
      by_cases ha : isAlphaC c = true
      · rw [if_pos ha, h c (List.mem_cons_self c cs)]
      · rw [if_neg ha,
          sentenceCase_of_invariant cs
            (fun d hd => h d (List.mem_cons_of_mem c hd))]

theorem mem_detokRest :
    ∀ (ws : List Str) (ch : Char), ch ∈ detokRest ws →
      ch = ' ' ∨ ∃ w ∈ ws, ch ∈ w
  | [], ch, h => by simp [detokRest] at h
  | w :: ws2, ch, h => by
      unfold detokRest at h
      rcases List.mem_append.mp h with h1 | h2
      · by_cases hw : isWordStr w = true
        · rw [if_pos hw] at h1
          rcases List.mem_cons.mp h1 with he | hm
          · exact Or.inl he
          · exact Or.inr ⟨w, List.mem_cons_self w ws2, hm⟩
        · rw [if_neg hw] at h1
          exact Or.inr ⟨w, List.mem_cons_self w ws2, h1⟩
      · rcases mem_detokRest ws2 ch h2 with hs | ⟨v, hv, hm⟩
        · exact Or.inl hs
        · exact Or.inr ⟨v, List.mem_cons_of_mem w hv, hm⟩

theorem mem_detok (ws : List Str) (ch : Char) (h : ch ∈ detok ws) :
    ch = ' ' ∨ ∃ w ∈ ws, ch ∈ w := by
  cases ws with
  | nil => simp [detok] at h
  | cons w ws2 =>
      unfold detok at h
      rcases List.mem_append.mp h with h1 | h2
      · exact Or.inr ⟨w, List.mem_cons_self w ws2, h1⟩
      · rcases mem_detokRest ws2 ch h2 with hs | ⟨v, hv, hm⟩
        · exact Or.inl hs
        · exact Or.inr ⟨v, List.mem_cons_of_mem w hv, hm⟩

theorem wf_char_invariant (w : Str) (h : wfTokStr w = true) :
    ∀ c ∈ w, upperC c = c := by
  intro c hc
  rcases Bool.or_eq_true_iff.mp h with hw | hp
  · exact ((wfWordStr_spec w hw).2 c hc).2
  · exact upperC_of_not_wordChar c ((wfPunctStr_spec w hp).2 c hc).1

theorem detok_char_invariant (ws : List Str) (hwf : allWfToks ws) :
    ∀ c ∈ detok ws, upperC c = c := by
  intro c hc
  rcases mem_detok ws c hc with hs | ⟨w, hw, hm⟩
  · rw [hs]
    decide
  · exact wf_char_invariant w (hwf w hw) c hm

theorem reconstruct_shape (m : Model) (c : List Nat)
    (hwf : allWfToks (renderToks m c)) :
    reconstructSyms m c = detok (renderToks m c) ∨
      reconstructSyms m c = detok (renderToks m c) ++ ['.'] := by
  unfold reconstructSyms
  rw [sentenceCase_of_invariant _ (detok_char_invariant _ hwf)]
  exact terminalize_cases _

theorem upperS_reconstruct (m : Model) (c : List Nat)
    (hwf : allWfToks (renderToks m c)) :
    upperS (reconstructSyms m c) = reconstructSyms m c := by
  rcases reconstruct_shape m c hwf with h | h <;> rw [h]
  · exact upperS_of_invariant _ (detok_char_invariant _ hwf)
  · refine upperS_of_invariant _ (fun ch hc => ?_)
    rcases List.mem_append.mp hc with h1 | h2
    · exact detok_char_invariant _ hwf ch h1
    · have : ch = '.' := by simpa using h2
      rw [this]
      decide

theorem wordsOf_tokenize_reconstruct (m : Model) (c : List Nat)
    (hwf : allWfToks (renderToks m c)) :
    wordsOfToks (tokenizeAux (reconstructSyms m c) none) = wordStrings m c := by
  rcases reconstruct_shape m c hwf with h | h <;> rw [h]
  · have := wordsOf_detok (renderToks m c) hwf [] (by intro c hc; simp at hc)
    rw [List.append_nil] at this
    exact this
  · exact wordsOf_detok (renderToks m c) hwf ['.']
      (by
        intro d hd
        have : d = '.' := by simpa using hd
        rw [this]
        exact ⟨by decide, by decide⟩)

mutual

/-- All symbol ids labelling edges anywhere below a node. -/
def allSymsTrie : Trie → List Nat
  | Trie.mk _ _ cs => allSymsChildren cs

/-- All symbol ids in a child list and its subtrees. -/
def allSymsChildren : List (Nat × Trie) → List Nat
  | [] => []
  | (a, t) :: cs => a :: (allSymsTrie t ++ allSymsChildren cs)

end

/-- Wellformed model: every non-sentinel symbol entry is a wellformed token
string and every symbol id stored in either trie is in range. -/
def wfModelB (m : Model) : Bool :=
  (m.symbols.drop 2).all wfTokStr
    && (allSymsTrie m.fwd).all (fun s => s < m.symbols.length)
    && (allSymsTrie m.bwd).all (fun s => s < m.symbols.length)

theorem wfModelB_symWord (m : Model) (h : wfModelB m = true) (i : Nat)
    (h2 : 2 ≤ i) (hlt : i < m.symbols.length) :
    wfTokStr (symWord m i) = true := by
  unfold wfModelB at h
  simp only [Bool.and_eq_true, List.all_eq_true] at h
  have hidx : i - 2 < (m.symbols.drop 2).length := by
    rw [List.length_drop]
    omega
  have he : (m.symbols.drop 2)[i - 2] = m.symbols[i] := by
    rw [List.getElem_drop]
    congr 1
    omega
  have hmem : m.symbols[i] ∈ m.symbols.drop 2 := by
    rw [← he]
    exact List.getElem_mem _
  have hsw : symWord m i = m.symbols[i] :=
    List.getD_eq_getElem m.symbols [] hlt
  rw [hsw]
  exact h.1.1 _ hmem

theorem wfModelB_fwd_lt (m : Model) (h : wfModelB m = true) :
    ∀ s ∈ allSymsTrie m.fwd, s < m.symbols.length := by
  unfold wfModelB at h
  simp only [Bool.and_eq_true, List.all_eq_true, decide_eq_true_eq] at h
  exact h.1.2

theorem wfModelB_bwd_lt (m : Model) (h : wfModelB m = true) :
    ∀ s ∈ allSymsTrie m.bwd, s < m.symbols.length := by
  unfold wfModelB at h
  simp only [Bool.and_eq_true, List.all_eq_true, decide_eq_true_eq] at h
  exact h.2

theorem findIdx?_bound {α : Type} (p : α → Bool) :
    ∀ (l : List α) (i j : Nat), List.findIdx? p l i = some j →
      j < i + l.length
  | [], i, j, h => by
      rw [show List.findIdx? p ([] : List α) i = none from rfl] at h
      exact Option.noConfusion h
  | a :: l, i, j, h => by
      rw [List.findIdx?_cons] at h
      by_cases hp : p a = true
      · rw [if_pos hp] at h
        injection h with h
        simp only [List.length_cons]
        omega
      · rw [if_neg hp] at h
        have := findIdx?_bound p l (i + 1) j h
        simp only [List.length_cons]
        omega

theorem mem_filterMap_findIdx (syms : List Str) (ws : List Str) (k : Nat)
    (h : k ∈ ws.filterMap (fun w => syms.findIdx? (fun v => v = w))) :
    k < syms.length := by
  rcases List.mem_filterMap.mp h with ⟨w, _, hfind⟩
  have := findIdx?_bound (fun v => v = w) syms 0 k hfind
  omega

theorem keywordIds_lt (lex : Lex) (m : Model) (utt : Str) :
    ∀ k ∈ keywordIds lex m utt, k < m.symbols.length := by
  intro k hk
  unfold keywordIds at hk
  by_cases hp : (kwPrimary lex m utt).isEmpty
  · rw [if_pos hp] at hk
    exact mem_filterMap_findIdx m.symbols _ k hk
  · rw [if_neg hp] at hk
    exact mem_filterMap_findIdx m.symbols _ k hk

theorem allSymsTrie_eq (t : Trie) :
    allSymsTrie t = allSymsChildren t.children := by
  cases t
  rfl

theorem mem_allSymsChildren :
    ∀ (cs : List (Nat × Trie)) (a : Nat) (t : Trie), (a, t) ∈ cs →
      a ∈ allSymsChildren cs ∧ ∀ x ∈ allSymsTrie t, x ∈ allSymsChildren cs
  | [], a, t, h => by simp at h
  | (b, u) :: cs, a, t, h => by
      rcases List.mem_cons.mp h with he | hm
      · injection he with h1 h2
        subst h1
        subst h2
        constructor
        · exact List.mem_cons_self a _
        · intro x hx
          simp only [allSymsChildren, List.mem_cons, List.mem_append]
          exact Or.inr (Or.inl hx)
      · obtain ⟨ha, hs⟩ := mem_allSymsChildren cs a t hm
        constructor
        · simp only [allSymsChildren, List.mem_cons, List.mem_append]
          exact Or.inr (Or.inr ha)
        · intro x hx
          simp only [allSymsChildren, List.mem_cons, List.mem_append]
          exact Or.inr (Or.inr (hs x hx))

theorem lookupChild_mem :
    ∀ (cs : List (Nat × Trie)) (s : Nat) (t : Trie),
      lookupChild cs s = some t → (s, t) ∈ cs
  | [], s, t, h => by simp [lookupChild] at h
  | (a, u) :: cs, s, t, h => by
      unfold lookupChild at h
      by_cases ha : a = s
      · rw [if_pos ha] at h
        injection h with h
        subst ha
        subst h
        exact List.mem_cons_self _ _
      · rw [if_neg ha] at h
        exact List.mem_cons_of_mem _ (lookupChild_mem cs s t h)

theorem followPath_syms :
    ∀ (p : List Nat) (t node : Trie), followPath t p = some node →
      ∀ x ∈ allSymsTrie node, x ∈ allSymsTrie t
  | [], t, node, h => by
      injection h with h
      subst h
      exact fun x hx => hx
  | s :: rest, t, node, h => by
      unfold followPath at h
      cases hl : lookupChild t.children s with
      | none =>
          rw [hl] at h
          exact absurd h (by simp)
      | some ch =>
          rw [hl] at h
          intro x hx
          have h1 := followPath_syms rest ch node h x hx
          have h2 := (mem_allSymsChildren t.children s ch
            (lookupChild_mem _ _ _ hl)).2 x h1
          rw [allSymsTrie_eq t]
          exact h2

theorem ctxNode_syms :
    ∀ (ctx : List Nat) (t node : Trie), ctxNode t ctx = some node →
      ∀ x ∈ allSymsTrie node, x ∈ allSymsTrie t
  | [], t, node, h => by
      unfold ctxNode at h
      by_cases he : t.children.isEmpty
      · rw [if_pos he] at h
        exact absurd h (by simp)
      · rw [if_neg he] at h
        injection h with h
        subst h
        exact fun x hx => hx
  | s :: rest, t, node, h => by
      unfold ctxNode at h
      cases hf : followPath t (s :: rest) with
      | none =>
          rw [hf] at h
          exact ctxNode_syms rest t node h
      | some nd =>
          rw [hf] at h
          simp only [] at h
          by_cases he : nd.children.isEmpty
          · rw [if_pos he] at h
            exact ctxNode_syms rest t node h
          · rw [if_neg he] at h
            injection h with h
            subst h
            exact followPath_syms (s :: rest) t _ hf

theorem pickScan_mem :
    ∀ (r : Nat) (cs : List (Nat × Trie)) (c : Nat × Trie),
      pickScan r cs = some c → c ∈ cs
  | r, [], c, h => by simp [pickScan] at h
  | r, d :: cs, c, h => by
      unfold pickScan at h
      by_cases hr : r < d.2.usage
      · rw [if_pos hr] at h
        injection h with h
        subst h
        exact List.mem_cons_self _ _
      · rw [if_neg hr] at h
        exact List.mem_cons_of_mem _ (pickScan_mem _ cs c h)

theorem sampleChild_mem (t : Trie) (r : Nat) (c : Nat × Trie)
    (h : sampleChild t r = some c) : c ∈ t.children := by
  unfold sampleChild at h
  cases hp : pickScan (r % (t.usage + 1)) t.children with
  | some d =>
      rw [hp] at h
      injection h with h
      subst h
      exact pickScan_mem _ _ _ hp
  | none =>
      rw [hp] at h
      exact List.mem_of_mem_head? h

theorem sampleChild_sym (t : Trie) (r : Nat) (c : Nat × Trie)
    (h : sampleChild t r = some c) : c.1 ∈ allSymsTrie t := by
  have h1 := sampleChild_mem t r c h
  have h2 : (c.1, c.2) ∈ t.children := by
    rw [Prod.mk.eta]
    exact h1
  rw [allSymsTrie_eq t]
  exact (mem_allSymsChildren t.children c.1 c.2 h2).1

theorem biasKeyword_mem (kws used reply : List Nat) (node : Trie) (k : Nat)
    (h : biasKeyword kws used reply node = some k) : k ∈ kws := by
  unfold biasKeyword at h
  have hm := List.mem_of_mem_head? h
  exact List.mem_of_mem_filter hm

theorem extendF_syms (t : Trie) (n : Nat) (kws : List Nat) :
    ∀ (fuel : Nat) (reply used : List Nat) (rng : Rng)
      (res : List Nat × List Nat × Rng),
      extendF t n kws fuel reply used rng = some res →
      ∀ x ∈ res.1, x ∈ reply ∨ x ∈ allSymsTrie t ∨ x ∈ kws
  | 0, reply, used, rng, res, h => by
      injection h with h
      subst h
      exact fun x hx => Or.inl hx
  | fuel + 1, reply, used, rng, res, h => by
      unfold extendF at h
      cases hctx : ctxNode t (reply.drop (reply.length - n)) with
      | none =>
          rw [hctx] at h
          exact absurd h (by simp)
      | some node =>
          rw [hctx] at h
          simp only [] at h
          cases hsc : sampleChild node (takeR rng).1 with
          | none =>
              rw [hsc] at h
              exact absurd h (by simp)
          | some c =>
              rw [hsc] at h
              simp only [] at h
              have hcs : c.1 ∈ allSymsTrie t :=
                ctxNode_syms _ t node hctx c.1 (sampleChild_sym node _ c hsc)
              cases hb : biasKeyword kws used reply node with
              | some k =>
                  rw [hb] at h
                  simp only [] at h
                  have hk := biasKeyword_mem kws used reply node k hb
                  by_cases hf : k = finSym
                  · rw [if_pos hf] at h
                    injection h with h
                    subst h
                    exact fun x hx => Or.inl hx
                  · rw [if_neg hf] at h
                    intro x hx
                    rcases extendF_syms t n kws fuel (reply ++ [k]) (k :: used)
                        (takeR rng).2 res h x hx with h1 | h2 | h3
                    · rcases List.mem_append.mp h1 with ha | hb2
                      · exact Or.inl ha
                      · have hxk : x = k := by simpa using hb2
                        subst hxk
                        exact Or.inr (Or.inr hk)
                    · exact Or.inr (Or.inl h2)
                    · exact Or.inr (Or.inr h3)
              | none =>
                  rw [hb] at h
                  simp only [] at h
                  by_cases hf : c.1 = finSym
                  · rw [if_pos hf] at h
                    injection h with h
                    subst h
                    exact fun x hx => Or.inl hx
                  · rw [if_neg hf] at h
                    intro x hx
                    rcases extendF_syms t n kws fuel (reply ++ [c.1]) used
                        (takeR rng).2 res h x hx with h1 | h2 | h3
                    · rcases List.mem_append.mp h1 with ha | hb2
                      · exact Or.inl ha
                      · have hxc : x = c.1 := by simpa using hb2
                        subst hxc
                        exact Or.inr (Or.inl hcs)
                    · exact Or.inr (Or.inl h2)
                    · exact Or.inr (Or.inr h3)

theorem extendB_syms (t : Trie) (n : Nat) (kws : List Nat) :
    ∀ (fuel : Nat) (reply used : List Nat) (rng : Rng)
      (res : List Nat × List Nat × Rng),
      extendB t n kws fuel reply used rng = some res →
      ∀ x ∈ res.1, x ∈ reply ∨ x ∈ allSymsTrie t ∨ x ∈ kws
  | 0, reply, used, rng, res, h => by
      injection h with h
      subst h
      exact fun x hx => Or.inl hx
  | fuel + 1, reply, used, rng, res, h => by
      unfold extendB at h
      cases hctx : ctxNode t (reply.take n).reverse with
      | none =>
          rw [hctx] at h
          exact absurd h (by simp)
      | some node =>
          rw [hctx] at h
          simp only [] at h
          cases hsc : sampleChild node (takeR rng).1 with
          | none =>
              rw [hsc] at h
              exact absurd h (by simp)
          | some c =>
              rw [hsc] at h
              simp only [] at h
              have hcs : c.1 ∈ allSymsTrie t :=
                ctxNode_syms _ t node hctx c.1 (sampleChild_sym node _ c hsc)
              cases hb : biasKeyword kws used reply node with
              | some k =>
                  rw [hb] at h
                  simp only [] at h
                  have hk := biasKeyword_mem kws used reply node k hb
                  by_cases hf : k = finSym
                  · rw [if_pos hf] at h
                    injection h with h
                    subst h
                    exact fun x hx => Or.inl hx
                  · rw [if_neg hf] at h
                    intro x hx
                    rcases extendB_syms t n kws fuel (k :: reply) (k :: used)
                        (takeR rng).2 res h x hx with h1 | h2 | h3
                    · rcases List.mem_cons.mp h1 with ha | hb2
                      · subst ha
                        exact Or.inr (Or.inr hk)
                      · exact Or.inl hb2
                    · exact Or.inr (Or.inl h2)
                    · exact Or.inr (Or.inr h3)
              | none =>
                  rw [hb] at h
                  simp only [] at h
                  by_cases hf : c.1 = finSym
                  · rw [if_pos hf] at h
                    injection h with h
                    subst h
                    exact fun x hx => Or.inl hx
                  · rw [if_neg hf] at h
                    intro x hx
                    rcases extendB_syms t n kws fuel (c.1 :: reply) used
                        (takeR rng).2 res h x hx with h1 | h2 | h3
                    · rcases List.mem_cons.mp h1 with ha | hb2
                      · subst ha
                        exact Or.inr (Or.inl hcs)
                      · exact Or.inl hb2
                    · exact Or.inr (Or.inl h2)
                    · exact Or.inr (Or.inr h3)

theorem seedCandidate_syms (m : Model) (kws : List Nat) (rng : Rng)
    (sp : Nat × Rng) (h : seedCandidate m kws rng = some sp) :
    sp.1 ∈ allSymsTrie m.fwd ∨ sp.1 ∈ kws := by
  unfold seedCandidate at h
  cases kws with
  | nil =>
      cases hsc : sampleChild m.fwd (takeR rng).1 with
      | none =>
          rw [hsc] at h
          exact absurd h (by simp)
      | some c =>
          rw [hsc] at h
          simp only [] at h
          injection h with h
          subst h
          exact Or.inl (sampleChild_sym m.fwd _ c hsc)
  | cons k ks =>
      injection h with h
      subst h
      refine Or.inr ?_
      by_cases hi : (takeR rng).1 % (k :: ks).length < (k :: ks).length
      · rw [List.getD_eq_getElem (k :: ks) k hi]
        exact List.getElem_mem _
      · rw [List.getD_eq_default _ _ (by omega)]
        exact List.mem_cons_self _ _

theorem genCandidate_syms (m : Model) (n : Nat) (kws : List Nat) (rng : Rng)
    (res : List Nat × Rng) (h : genCandidate m n kws rng = some res) :
    ∀ x ∈ res.1,
      x ∈ allSymsTrie m.fwd ∨ x ∈ allSymsTrie m.bwd ∨ x ∈ kws := by
  unfold genCandidate at h
  cases hseed : seedCandidate m kws rng with
  | none =>
      rw [hseed] at h
      exact absurd h (by simp)
  | some sp =>
      rw [hseed] at h
      simp only [] at h
      cases hf : extendF m.fwd n kws hardCap [sp.1] [sp.1] sp.2 with
      | none =>
          rw [hf] at h
          exact absurd h (by simp)
      | some f =>
          rw [hf] at h
          simp only [] at h
          cases hb : extendB m.bwd n kws hardCap f.1 f.2.1 f.2.2 with
          | none =>
              rw [hb] at h
              exact absurd h (by simp)
          | some b =>
              rw [hb] at h
              simp only [] at h
              injection h with h
              subst h
              intro x hx
              rcases extendB_syms m.bwd n kws hardCap f.1 f.2.1 f.2.2 b hb x
                  hx with h1 | h2 | h3
              · rcases extendF_syms m.fwd n kws hardCap [sp.1] [sp.1] sp.2 f
                    hf x h1 with g1 | g2 | g3
                · have hxsp : x = sp.1 := by simpa using g1
                  subst hxsp
                  rcases seedCandidate_syms m kws rng sp hseed with hs | hs
                  · exact Or.inl hs
                  · exact Or.inr (Or.inr hs)
                · exact Or.inl g2
                · exact Or.inr (Or.inr g3)
              · exact Or.inr (Or.inl h2)
              · exact Or.inr (Or.inr h3)

theorem searchLoop_inv (m : Model) (n : Nat) (score : List Nat → Int)
    (kws : List Nat) (utt : Str) :
    ∀ (b : Nat) (rng : Rng) (best : Option (List Nat × Int)),
      (∀ p, best = some p → rejectCand m utt p.1 = false ∧
        ∀ x ∈ p.1,
          x ∈ allSymsTrie m.fwd ∨ x ∈ allSymsTrie m.bwd ∨ x ∈ kws) →
      ∀ c, searchLoop m n score kws utt b rng best = some c →
        rejectCand m utt c = false ∧
          ∀ x ∈ c, x ∈ allSymsTrie m.fwd ∨ x ∈ allSymsTrie m.bwd ∨ x ∈ kws
  | 0, rng, best, hbest, c, h => by
      cases best with
      | none => exact absurd h (by simp [searchLoop])
      | some p =>
          have hc : p.1 = c := by
            simpa [searchLoop] using h
          rw [← hc]
          exact hbest p rfl
  | b + 1, rng, best, hbest, c, h => by
      unfold searchLoop at h
      cases hg : genCandidate m n kws rng with
      | none =>
          rw [hg] at h
          exact searchLoop_inv m n score kws utt b rng.tail best hbest c h
      | some cr =>
          rw [hg] at h
          simp only [] at h
          by_cases hr : rejectCand m utt cr.1 = true
          · rw [if_pos hr] at h
            exact searchLoop_inv m n score kws utt b cr.2 best hbest c h
          · rw [if_neg hr] at h
            have hcr : rejectCand m utt cr.1 = false := by
              simpa using hr
            have hsyms := genCandidate_syms m n kws rng cr hg
            cases best with
            | none =>
                simp only [] at h
                refine searchLoop_inv m n score kws utt b cr.2 _
                  (fun p hp => ?_) c h
                injection hp with hp
                subst hp
                exact ⟨hcr, hsyms⟩
            | some bp =>
                simp only [] at h
                by_cases hlt : bp.2 < score cr.1
                · rw [if_pos hlt] at h
                  refine searchLoop_inv m n score kws utt b cr.2 _
                    (fun p hp => ?_) c h
                  injection hp with hp
                  subst hp
                  exact ⟨hcr, hsyms⟩
                · rw [if_neg hlt] at h
                  refine searchLoop_inv m n score kws utt b cr.2 _
                    (fun p hp => ?_) c h
                  injection hp with hp
                  subst hp
                  exact hbest bp rfl

/--
C8 (amended): for every utterance, when the model is wellformed (symbol
table and trie contents as produced by learning), every non-fallback reply
differs from the utterance case-insensitively: during candidate search any
candidate identical to the utterance up to case and punctuation, or equal to
it after reconstruction, is rejected, so only the fallback path can echo the
utterance.
-/
theorem reply_no_echo (lex : Lex) (m : Model) (n : Nat)
    (score : List Nat → Int) (utt : Str) (budget : Nat) (rng : Rng)
    (hwf : wfModelB m = true)
    (hne : megahalReply lex m n score utt budget rng ≠ fallbackStr) :
    upperS (megahalReply lex m n score utt budget rng) ≠ upperS utt := by
  unfold megahalReply replyWithKeywords at hne ⊢
  cases hs : searchLoop m n score (keywordIds lex m utt) utt budget rng none
    with
  | none =>
      rw [hs] at hne
      exact absurd rfl hne
  | some c =>
      intro heq
      obtain ⟨hrej, hsyms⟩ := searchLoop_inv m n score (keywordIds lex m utt)
        utt budget rng none (fun p hp => absurd hp (by simp)) c hs
      have hwfws : allWfToks (renderToks m c) := by
        intro w hw
        rcases List.mem_map.mp
          (show w ∈ (c.filter (fun i => 2 ≤ i)).map (symWord m) from hw) with
          ⟨i, hi, rfl⟩
        obtain ⟨hic, h2b⟩ := List.mem_filter.mp hi
        have h2 : 2 ≤ i := by simpa using h2b
        have hlt : i < m.symbols.length := by
          rcases hsyms i hic with hh | hh | hh
          · exact wfModelB_fwd_lt m hwf i hh
          · exact wfModelB_bwd_lt m hwf i hh
          · exact keywordIds_lt lex m utt i hh
        exact wfModelB_symWord m hwf i h2 hlt
      have heq2 : reconstructSyms m c = upperS utt := by
        rw [← upperS_reconstruct m c hwfws]
        exact heq
      have e4 : wordStrings m c = uttWordStrings utt := by
        rw [← wordsOf_tokenize_reconstruct m c hwfws, heq2,
          tokenizeAux_upperS utt none, uttWordStrings_eq]
      unfold rejectCand at hrej
      simp only [Bool.or_eq_false_iff, decide_eq_false_iff_not] at hrej
      exact hrej.1 e4

/--
C8 counterexample to the claim as stated: the model below is trained on one
sentence, so it contains alternative tokens (CAT among them, not a word of
the utterance), yet a reply call whose budget yields no accepted candidate
returns the fallback string; with the fallback string itself as the
utterance, the reply equals the utterance, also case-insensitively.
-/
theorem reply_no_echo_counterexample :
    ("CAT".toList ∈ (learnState 5 initModel
        ("The cat sat on the mat and looked out.".toList)).symbols) ∧
      megahalReply ⟨[], [], [], []⟩
          (learnState 5 initModel
            ("The cat sat on the mat and looked out.".toList)) 5
          (fun _ => 0) fallbackStr 0 [] = fallbackStr ∧
      upperS (megahalReply ⟨[], [], [], []⟩
          (learnState 5 initModel
            ("The cat sat on the mat and looked out.".toList)) 5
          (fun _ => 0) fallbackStr 0 []) = upperS fallbackStr :=
  ⟨by decide, rfl, rfl⟩

/-- Witness for the amended C8 at a concrete trained model, utterance and
seed yielding a non-fallback reply. -/
theorem reply_no_echo_witness :
    (wfModelB (learnState 5 initModel
        ("The cat sat on the mat and looked out.".toList)) = true) ∧
      (megahalReply ⟨[], [], [], []⟩ (learnState 5 initModel
          ("The cat sat on the mat and looked out.".toList)) 5 (fun _ => 0)
          ("hello".toList) 2 [] ≠ fallbackStr) ∧
      upperS (megahalReply ⟨[], [], [], []⟩ (learnState 5 initModel
          ("The cat sat on the mat and looked out.".toList)) 5 (fun _ => 0)
          ("hello".toList) 2 []) ≠ upperS ("hello".toList) :=
  ⟨by decide, by decide,
    reply_no_echo ⟨[], [], [], []⟩ _ 5 (fun _ => 0) ("hello".toList) 2 []
      (by decide) (by decide)⟩

/-- Witness for C7 at a concrete trained model and seed yielding a
non-fallback reply. -/
theorem reply_formatted_witness :
    (replyWithKeywords (learnState 5 initModel
        ("The cat sat on the mat and looked out.".toList)) 5 (fun _ => 0)
        [] ("hello".toList) 2 [] ≠ fallbackStr) ∧
      ((∀ ch, (replyWithKeywords (learnState 5 initModel
            ("The cat sat on the mat and looked out.".toList)) 5 (fun _ => 0)
            [] ("hello".toList) 2 []).find? isAlphaC = some ch →
          isUpperC ch = true) ∧
        (∃ ch, (rstrip (replyWithKeywords (learnState 5 initModel
            ("The cat sat on the mat and looked out.".toList)) 5 (fun _ => 0)
            [] ("hello".toList) 2 [])).getLast? = some ch ∧
          isTermPunct ch = true)) :=
  ⟨by decide,
    reply_formatted (learnState 5 initModel
        ("The cat sat on the mat and looked out.".toList)) 5 (fun _ => 0)
      [] ("hello".toList) 2 [] (by decide)⟩

end MegahalSql
